import Mathlib
set_option maxRecDepth 16384

/-!
# Verification of the node-appletv-remote binary codecs and transport state

Shallow embedding of the repository's pure data-path code:

* `src/util/tlv.ts` — TLV8 codec (`tlvEncode`, `tlvDecode`)
* `src/companion/opack.ts` — compact-pack ("OPACK") codec
* `src/companion/framing.ts` — Companion 4-byte frames
* `src/companion/connection.ts` — pair-verify M1 construction, transfer registry
* `src/util/data-stream.ts` — varint, DataStream 32-byte frames
* `src/util/hap-session.ts` / `src/util/crypto.ts` — HAP chunking and nonces
* `unnamed/part_007` (`pair-verify.ts`) — `PairVerify.buildM1`

Buffers are modelled as `List Nat` with every element `< 256` where a claim
needs the byte bound.  JavaScript `number` values holding integers are
modelled as `Int` (exact for `|n| ≤ 2^53`), and `bigint` as `Int`.
-/

namespace ATV

/-- Little-endian byte list of `n`, `k` bytes (models Node's
`writeUIntLE`-family writers; the writers throw for `n ≥ 2^(8k)`, so theorems
only use this for in-range `n`, where byte `i` is `n / 2^(8i) % 256`). -/
def leBytes (k : Nat) (n : Nat) : List Nat :=
  match k with
  | 0 => []
  | k + 1 => (n % 256) :: leBytes k (n / 256)

/-- Big-endian byte list of `n`, `k` bytes (models `writeUInt32BE`,
`writeBigUInt64BE` for in-range `n`). -/
def beBytes (k : Nat) (n : Nat) : List Nat :=
  match k with
  | 0 => []
  | k + 1 => beBytes k (n / 256) ++ [n % 256]

/-- Read `k` bytes little-endian from the front of `l` (models
`readUIntLE`-family readers; `none` when fewer than `k` bytes remain,
which in Node raises a range error). -/
def readLE (k : Nat) (l : List Nat) : Option (Nat × List Nat) :=
  match k, l with
  | 0, l => some (0, l)
  | _ + 1, [] => none
  | k + 1, b :: rest =>
    match readLE k rest with
    | none => none
    | some (hi, rest') => some (b + 256 * hi, rest')

theorem leBytes_length (k n : Nat) : (leBytes k n).length = k := by
  induction k generalizing n with
  | zero => rfl
  | succ k ih => simp [leBytes, ih]

theorem beBytes_length (k n : Nat) : (beBytes k n).length = k := by
  induction k generalizing n with
  | zero => rfl
  | succ k ih => simp [beBytes, ih]

theorem readLE_leBytes (k : Nat) (n : Nat) (h : n < 2 ^ (8 * k)) (rest : List Nat) :
    readLE k (leBytes k n ++ rest) = some (n, rest) := by
  induction k generalizing n with
  | zero =>
    interval_cases n
    simp [leBytes, readLE]
  | succ k ih =>
    have hdiv : n / 256 < 2 ^ (8 * k) := by
      have : 2 ^ (8 * (k + 1)) = 256 * 2 ^ (8 * k) := by ring
      omega
    simp only [leBytes, List.cons_append, readLE]
    rw [List.append_eq, ih _ hdiv]
    simp only [Option.some.injEq, Prod.mk.injEq]
    exact ⟨by omega, trivial⟩

/-! ## TLV8 codec (`src/util/tlv.ts`)

`TlvData` is a JavaScript object keyed by small integers.  `Object.entries`
enumerates integer-like keys in ascending numeric order regardless of the
order of the literal, so the encoder's iteration order is the sorted order of
the tags; `jsObjEntries` models that enumeration. -/

/-- Insert one `(tag, value)` entry keeping tags in ascending order. -/
def insertEntry (e : Nat × List Nat) : List (Nat × List Nat) → List (Nat × List Nat)
  | [] => [e]
  | f :: rest => if e.1 ≤ f.1 then e :: f :: rest else f :: insertEntry e rest

/-- `Object.entries` view of a `TlvData` object built from the given
(key-distinct) properties: integer-like keys enumerate in ascending order. -/
def jsObjEntries (l : List (Nat × List Nat)) : List (Nat × List Nat) :=
  l.foldr insertEntry []

/-- The `while offset < value.length` loop of `tlvEncode`: emit
`tag, min(255, remaining)`-byte chunks.  `fuel` only bounds the iteration
count (each pass consumes at least one byte, so `fuel = v.length` suffices);
`Buffer.from([tag, chunkSize])` stores `tag` modulo 256. -/
def tlvChunks : Nat → Nat → List Nat → List Nat
  | 0, _, _ => []
  | _ + 1, _, [] => []
  | fuel + 1, tag, v =>
    (tag % 256) :: min 255 v.length :: (v.take 255 ++ tlvChunks fuel tag (v.drop 255))

/-- Byte emission of `tlvEncode` for a single entry: the chunk loop, plus the
`if (value.length === 0) parts.push(Buffer.from([tag, 0]))` tail. -/
def tlvEncodeEntry (tag : Nat) (v : List Nat) : List Nat :=
  if v.length = 0 then [tag % 256, 0] else tlvChunks v.length tag v

/-- Concatenate the per-entry emissions (the `parts` accumulator). -/
def tlvEntriesBytes : List (Nat × List Nat) → List Nat
  | [] => []
  | e :: rest => tlvEncodeEntry e.1 e.2 ++ tlvEntriesBytes rest

/-- `tlvEncode` from `src/util/tlv.ts`: iterate `Object.entries(data)` (keys
ascending) and emit each entry's chunks. -/
def tlvEncode (data : List (Nat × List Nat)) : List Nat :=
  tlvEntriesBytes (jsObjEntries data)

/-- `result[tag] = value` / `result[tag] = concat(...)` on the decoder's
accumulator object, viewed through its ascending integer-key enumeration:
an existing tag is extended in place, a new tag enters at its sorted slot. -/
def tlvInsert (tag : Nat) (v : List Nat) : List (Nat × List Nat) → List (Nat × List Nat)
  | [] => [(tag, v)]
  | e :: rest =>
    if e.1 = tag then (e.1, e.2 ++ v) :: rest
    else if tag < e.1 then (tag, v) :: e :: rest
    else e :: tlvInsert tag v rest

/-- The `while offset < buf.length` loop of `tlvDecode`.  A lone trailing
byte reads an `undefined` length: the value is empty and `offset` becomes
`NaN`, ending the loop.  `fuel` bounds iterations (`buf.length` suffices). -/
def tlvDecodeLoop : Nat → List Nat → List (Nat × List Nat) → List (Nat × List Nat)
  | 0, _, acc => acc
  | _ + 1, [], acc => acc
  | _ + 1, [tag], acc => tlvInsert tag [] acc
  | fuel + 1, tag :: len :: rest, acc =>
    tlvDecodeLoop fuel (rest.drop len) (tlvInsert tag (rest.take len) acc)

/-- `tlvDecode` from `src/util/tlv.ts`. -/
def tlvDecode (buf : List Nat) : List (Nat × List Nat) :=
  tlvDecodeLoop buf.length buf []

/-! ## Pair-verify M1 (`PairVerify.buildM1`, `CompanionConnection.pairVerify`,
`AirPlayConnection.pairVerifyOnSocket`)

All three build M1 as
`tlvEncode({ [TlvTag.SeqNo]: Buffer.from([0x01]), [TlvTag.PublicKey]: eph })`
with `TlvTag.SeqNo = 6` and `TlvTag.PublicKey = 3`. -/

/-- `PairVerify.buildM1` (identical TLV construction in the Companion and
in-socket AirPlay pair-verify M1). -/
def buildM1 (ephemeralPublicKeyRaw : List Nat) : List Nat :=
  tlvEncode [(6, [0x01]), (3, ephemeralPublicKeyRaw)]

/-! ## Companion framing (`src/companion/framing.ts`)

A frame is a 1-byte type, a 3-byte big-endian payload length, and the
payload. -/

/-- `encodeFrame`: `header[0] = type` stores the type modulo 256; the three
length bytes are `(len >> 16) & 0xff`, `(len >> 8) & 0xff`, `len & 0xff`. -/
def encodeFrame (type : Nat) (payload : List Nat) : List Nat :=
  (type % 256) :: (payload.length / 65536 % 256) :: (payload.length / 256 % 256) ::
    (payload.length % 256) :: payload

/-- The `while (offset + HEADER_SIZE <= buffer.length)` loop of
`parseFrames`; the declared length is `(b1 << 16) | (b2 << 8) | b3` (the
buffer's bytes are `< 256`, so this is `b1·2^16 + b2·2^8 + b3`).  `fuel`
bounds iterations (`buffer.length` suffices, each pass consumes ≥ 4
bytes). -/
def parseFramesLoop : Nat → List Nat → List (Nat × List Nat) × List Nat
  | 0, buf => ([], buf)
  | fuel + 1, t :: b1 :: b2 :: b3 :: rest =>
    if rest.length < b1 * 65536 + b2 * 256 + b3 then ([], t :: b1 :: b2 :: b3 :: rest)
    else
      let r := parseFramesLoop fuel (rest.drop (b1 * 65536 + b2 * 256 + b3))
      ((t, rest.take (b1 * 65536 + b2 * 256 + b3)) :: r.1, r.2)
  | _ + 1, buf => ([], buf)

/-- `parseFrames` from `src/companion/framing.ts`: complete frames at the
front of the buffer, plus the unconsumed remainder. -/
def parseFrames (buffer : List Nat) : List (Nat × List Nat) × List Nat :=
  parseFramesLoop buffer.length buffer

/-- Concatenated re-encoding of a frame list. -/
def framesBytes : List (Nat × List Nat) → List Nat
  | [] => []
  | f :: rest => encodeFrame f.1 f.2 ++ framesBytes rest

/-- `true` when the buffer holds no complete frame at its front: either it
is shorter than a 4-byte header, or the declared payload is not fully
present. -/
def frameIncomplete : List Nat → Bool
  | _ :: b1 :: b2 :: b3 :: rest => rest.length < b1 * 65536 + b2 * 256 + b3
  | _ => true

/-! ## Protobuf-style varint (`src/util/data-stream.ts`)

JavaScript bitwise helpers: `&`, `|`, `<<` work on 32-bit signed integers,
`>>>` on 32-bit unsigned integers. -/

/-- JS `ToUint32`. -/
def toUint32 (n : Int) : Nat := (n % (2 ^ 32 : Int)).toNat

/-- Signed 32-bit reading of a natural number (the result type of JS `&`,
`|`, `<<`). -/
def toInt32 (n : Nat) : Int :=
  if n % 2 ^ 32 < 2 ^ 31 then ((n % 2 ^ 32 : Nat) : Int)
  else ((n % 2 ^ 32 : Nat) : Int) - 2 ^ 32

/-- JS `x << s` for a nonnegative `x`: shift the low 32 bits (shift count mod
32), read the result as int32. -/
def jsShl32 (a : Nat) (s : Nat) : Int := toInt32 (a <<< (s % 32))

/-- JS `a | b`: 32-bit or, signed result. -/
def jsOr32 (a b : Int) : Int := toInt32 (toUint32 a ||| toUint32 b)

/-- The `while (value > 0x7f)` loop of `encodeVarint` on a nonnegative
integer below 2^32 (the repo only encodes buffer lengths, and for that domain
`value & 0x7f` and `value >>>= 7` are plain `% 128` / `/ 128`).  The loop
body runs at most 5 times for such values, so `fuel = 5` iterations suffice;
the fuel-exhausted branch is unreachable. -/
def encodeVarintLoop : Nat → Nat → List Nat
  | 0, v => [v &&& 127]
  | fuel + 1, v =>
    if 127 < v then ((v &&& 127) ||| 128) :: encodeVarintLoop fuel (v >>> 7)
    else [v &&& 127]

/-- `encodeVarint` from `src/util/data-stream.ts`. -/
def encodeVarint (value : Nat) : List Nat := encodeVarintLoop 5 value

/-- The accumulation loop of `decodeVarint`:
`value |= (byte & 0x7f) << shift` with 32-bit signed semantics, stopping on a
clear high bit. -/
def decodeVarintLoop : List Nat → Int → Nat → Nat → Int × Nat
  | [], value, _, bytesRead => (value, bytesRead)
  | byte :: rest, value, shift, bytesRead =>
    let nextValue := jsOr32 value (jsShl32 (byte &&& 127) shift)
    if byte &&& 128 == 0 then (nextValue, bytesRead + 1)
    else decodeVarintLoop rest nextValue (shift + 7) (bytesRead + 1)

/-- `decodeVarint` from `src/util/data-stream.ts` (at offset 0). -/
def decodeVarint (buf : List Nat) : Int × Nat := decodeVarintLoop buf 0 0 0

/-! ## HAP session (`src/util/hap-session.ts`, `src/util/crypto.ts`)

The AEAD itself (`encryptChaCha20`) is an external primitive; the embedding
takes it as an opaque function `key → nonce → plaintext → aad →
(ciphertext, tag)` and records every invocation the encrypt loop makes. -/

/-- `generateNonce` from `src/util/crypto.ts` at the default 12-byte length:
`Buffer.alloc(12, 0)` then `writeBigUInt64LE(counter, 4)` — four zero bytes
followed by the counter in 8 little-endian bytes (the writer throws for
counters ≥ 2^64; below that `leBytes` is exact). -/
def generateNonce (counter : Nat) : List Nat :=
  [0, 0, 0, 0] ++ leBytes 8 counter

/-- One AEAD invocation recorded by the `HAPSession.encrypt` loop. -/
structure FrameRec where
  lengthBytes : List Nat
  nonce : List Nat
  chunk : List Nat
  ciphertext : List Nat
  tag : List Nat
deriving Inhabited, DecidableEq

/-- `HAPSession` state: two directional keys and two directional counters. -/
structure HAPSession where
  outKey : List Nat
  inKey : List Nat
  outCounter : Nat
  inCounter : Nat

/-- The constructor: both counter fields are initialised to `0n`. -/
def HAPSession.create (outKey inKey : List Nat) : HAPSession :=
  { outKey := outKey, inKey := inKey, outCounter := 0, inCounter := 0 }

/-- The `while (offset < data.length)` loop of `HAPSession.encrypt`:
chunk at most 1024 bytes, 2-byte little-endian length prefix as AAD, nonce
from the current counter, counter incremented once per AEAD invocation.
Returns the recorded invocations and the final counter.  `fuel` bounds the
iteration count (`data.length` suffices: each pass consumes ≥ 1 byte). -/
def hapEncryptChunks
    (cipher : List Nat → List Nat → List Nat → List Nat → List Nat × List Nat) :
    Nat → List Nat → Nat → List Nat → List FrameRec × Nat
  | 0, _, counter, _ => ([], counter)
  | _ + 1, _, counter, [] => ([], counter)
  | fuel + 1, key, counter, data =>
    let chunkSize := min 1024 data.length
    let chunk := data.take chunkSize
    let lengthBytes := leBytes 2 chunkSize
    let nonce := generateNonce counter
    let ct := cipher key nonce chunk lengthBytes
    let r := hapEncryptChunks cipher fuel key (counter + 1) (data.drop chunkSize)
    ({ lengthBytes := lengthBytes, nonce := nonce, chunk := chunk,
       ciphertext := ct.1, tag := ct.2 } :: r.1, r.2)

/-- `HAPSession.encrypt`: frames are `lengthBytes ++ ciphertext ++ tag`
concatenated; the outbound counter carries the loop's final value. -/
def HAPSession.encrypt
    (cipher : List Nat → List Nat → List Nat → List Nat → List Nat × List Nat)
    (s : HAPSession) (data : List Nat) : List Nat × HAPSession :=
  let r := hapEncryptChunks cipher data.length s.outKey s.outCounter data
  (r.1.foldr (fun f acc => f.lengthBytes ++ f.ciphertext ++ f.tag ++ acc) [],
   { s with outCounter := r.2 })

/-! ## DataStream 32-byte framing (`src/util/data-stream.ts`)

The binary property list (`bplist-creator` / `bplist-parser`) is an external
dependency the spec treats as a black box; the embedding takes the encoder as
an opaque function and the parser as an opaque partial function returning the
`parsed[0].params.data` bytes (`none` models both a parse throw and a missing
`params.data`, which the source treats identically: `protobufData = null`). -/

/-- `globalSeqno`:
`BigInt(0x100000000) + BigInt(Math.floor(Math.random() * 0xFFFFFFFF))`,
drawn once at module load.  `k` is the floored draw, which lies in
`[0, 0xFFFFFFFE]` because `Math.random() < 1`. -/
def globalSeqno (k : Nat) : Nat := 0x100000000 + k

/-- `buildDataStreamFrame`: 4-byte big-endian total size, `"sync"` + 8 zero
bytes, `"comm"`, 8-byte big-endian sequence number, 4 zero padding bytes,
then the plist payload wrapping the varint-prefixed protobuf bytes. -/
def buildDataStreamFrame (bplist : List Nat → List Nat) (seqno : Nat)
    (protobufData : List Nat) : List Nat :=
  beBytes 4 (32 + (bplist (encodeVarint protobufData.length ++ protobufData)).length) ++
    [115, 121, 110, 99] ++ List.replicate 8 0 ++ [99, 111, 109, 109] ++
    beBytes 8 seqno ++ List.replicate 4 0 ++
    bplist (encodeVarint protobufData.length ++ protobufData)

/-- Big-endian value of a byte list (models `readUInt32BE` /
`readBigUInt64BE` applied to the listed bytes). -/
def beVal (l : List Nat) : Nat := l.foldl (fun a b => a * 256 + b) 0

/-- Parsed-frame message type. -/
inductive DSMessageType
  | sync
  | rply
deriving DecidableEq, Inhabited

/-- `ParsedDataStreamFrame` record. -/
structure ParsedDataStreamFrame where
  messageType : DSMessageType
  protobufData : Option (List Nat)
  seqno : Nat
  totalSize : Nat
deriving DecidableEq

/-- `messageTypeStr === 'rply'`: Node's `toString('ascii')` clears the high
bit of each byte before decoding, so the comparison holds exactly when the
masked bytes spell `rply` (`[0x72, 0x70, 0x6C, 0x79]`). -/
def dsClassify (typeBytes : List Nat) : DSMessageType :=
  if typeBytes.map (fun b => b &&& 0x7F) = [114, 112, 108, 121] then DSMessageType.rply
  else DSMessageType.sync

/-- `parseDataStreamFrame` from `src/util/data-stream.ts`. -/
def parseDataStreamFrame (plistParse : List Nat → Option (List Nat))
    (buf : List Nat) (offset : Nat) : Option ParsedDataStreamFrame :=
  if buf.length - offset < 32 then none
  else if buf.length - offset < beVal ((buf.drop offset).take 4) then none
  else if beVal ((buf.drop offset).take 4) ≤ 32 then
    some { messageType := dsClassify ((buf.drop (offset + 4)).take 4)
           protobufData := none
           seqno := beVal ((buf.drop (offset + 20)).take 8)
           totalSize := beVal ((buf.drop offset).take 4) }
  else
    match plistParse ((buf.drop (offset + 32)).take (beVal ((buf.drop offset).take 4) - 32)) with
    | none =>
      some { messageType := dsClassify ((buf.drop (offset + 4)).take 4)
             protobufData := none
             seqno := beVal ((buf.drop (offset + 20)).take 8)
             totalSize := beVal ((buf.drop offset).take 4) }
    | some data =>
      some { messageType := dsClassify ((buf.drop (offset + 4)).take 4)
             protobufData :=
               some ((data.drop (decodeVarint data).2).take (decodeVarint data).1.toNat)
             seqno := beVal ((buf.drop (offset + 20)).take 8)
             totalSize := beVal ((buf.drop offset).take 4) }

/-! ## Compact-pack ("OPACK") codec (`src/companion/opack.ts`)

The `OpackValue` space: `null`, booleans, JS numbers (integer-valued numbers
as `Int`, exact for magnitudes up to 2^53; non-integer numbers as their 8
IEEE-754 little-endian bytes), `bigint` as `Int`, strings as their utf-8
bytes, `Buffer`s as byte lists, arrays, and `Map`s as ordered
key-value-pair lists. -/

/-- The OPACK value space (`OpackValue`). -/
inductive OVal where
  | onull
  | obool (b : Bool)
  | oint (n : Int)
  | obig (n : Int)
  | ofloat (bytes : List Nat)
  | ostr (bytes : List Nat)
  | odata (bytes : List Nat)
  | oarr (xs : List OVal)
  | odict (ps : List (OVal × OVal))

/-- `encodeInteger`: small 0..39 inline as `0x08 + v`; unsigned 1/2/4/8-byte
little-endian with tags 0x30..0x33; any other integer (negatives included)
falls through to int64, written two's-complement by `writeBigInt64LE`
(visible as `n mod 2^64`; the writer throws outside `[-2^63, 2^63)`). -/
def encodeInteger (value : Int) : List Nat :=
  if 0 ≤ value ∧ value ≤ 39 then [8 + value.toNat]
  else if 0 ≤ value ∧ value ≤ 0xff then [0x30, value.toNat]
  else if 0 ≤ value ∧ value ≤ 0xffff then 0x31 :: leBytes 2 value.toNat
  else if 0 ≤ value ∧ value ≤ 0xffffffff then 0x32 :: leBytes 4 value.toNat
  else 0x33 :: leBytes 8 (value.emod (2 ^ 64)).toNat

/-- `encodeBigInt`: always int64, two's-complement little-endian. -/
def encodeBigInt (value : Int) : List Nat :=
  0x33 :: leBytes 8 (value.emod (2 ^ 64)).toNat

/-- `encodeString` on the string's utf-8 bytes: inline tag `0x40 + len` for
`len ≤ 32`, else length-prefixed tags 0x61 (u8), 0x62 (u16 LE), 0x63 (u24
LE), 0x64 (u32 LE; the writer throws for `len ≥ 2^32`). -/
def encodeString (data : List Nat) : List Nat :=
  if data.length ≤ 0x20 then (0x40 + data.length) :: data
  else if data.length ≤ 0xff then 0x61 :: data.length :: data
  else if data.length ≤ 0xffff then 0x62 :: (leBytes 2 data.length ++ data)
  else if data.length ≤ 0xffffff then 0x63 :: (leBytes 3 data.length ++ data)
  else 0x64 :: (leBytes 4 data.length ++ data)

/-- `encodeData`: inline tag `0x70 + len` for `len ≤ 32`, else 0x91 (u8),
0x92 (u16 LE), 0x93 (u32 LE). -/
def encodeData (value : List Nat) : List Nat :=
  if value.length ≤ 0x20 then (0x70 + value.length) :: value
  else if value.length ≤ 0xff then 0x91 :: value.length :: value
  else if value.length ≤ 0xffff then 0x92 :: (leBytes 2 value.length ++ value)
  else 0x93 :: (leBytes 4 value.length ++ value)

mutual
/-- `encodeValue`: tag dispatch of the OPACK encoder. -/
def encodeValue : OVal → List Nat
  | .onull => [0x04]
  | .obool true => [0x01]
  | .obool false => [0x02]
  | .oint n => encodeInteger n
  | .obig n => encodeBigInt n
  | .ofloat bs => 0x36 :: bs
  | .ostr bs => encodeString bs
  | .odata bs => encodeData bs
  | .oarr xs =>
    (0xd0 + min xs.length 0x0f) ::
      (encodeList xs ++ if 0x0f ≤ xs.length then [0x03] else [])
  | .odict ps =>
    (0xe0 + min ps.length 0x0f) ::
      (encodePairs ps ++ if 0x0f ≤ ps.length then [0x03] else [])

/-- The `for (const item of value)` loop of `encodeArray`. -/
def encodeList : List OVal → List Nat
  | [] => []
  | x :: xs => encodeValue x ++ encodeList xs

/-- The `for (const [k, v] of value)` loop of `encodeDict`. -/
def encodePairs : List (OVal × OVal) → List Nat
  | [] => []
  | p :: ps => encodeValue p.1 ++ (encodeValue p.2 ++ encodePairs ps)
end

/-- `opackEncode`. -/
def opackEncode (value : OVal) : List Nat := encodeValue value

mutual
/-- `decodeValue`: one value from the front of the buffer plus the
unconsumed rest; `none` models a throw (truncated read, unknown tag).
`fuel` bounds the recursion depth (`2·|buffer| + 2` dominates every
terminating run; the roundtrip lemmas establish the bound needed on encoder
outputs).  Tag 0x35 (float32) is read by the source via `readFloatLE` and
widened to a float64 number; a byte-level model cannot express that
widening, the encoder never emits 0x35 and no claim concerns it, so the
model treats it as outside its domain. -/
def decodeValueF : Nat → List Nat → Option (OVal × List Nat)
  | 0, _ => none
  | _ + 1, [] => none
  | fuel + 1, tag :: rest =>
    if tag = 0x04 then some (.onull, rest)
    else if tag = 0x01 then some (.obool true, rest)
    else if tag = 0x02 then some (.obool false, rest)
    else if tag = 0x05 then some (.odata (rest.take 16), rest.drop 16)
    else if 0x08 ≤ tag ∧ tag ≤ 0x2f then some (.oint ((tag - 8 : Nat) : Int), rest)
    else if tag = 0x30 then
      match rest with
      | b :: r => some (.oint (b : Int), r)
      | [] => none
    else if tag = 0x31 then
      match readLE 2 rest with
      | some (n, r) => some (.oint (n : Int), r)
      | none => none
    else if tag = 0x32 then
      match readLE 4 rest with
      | some (n, r) => some (.oint (n : Int), r)
      | none => none
    else if tag = 0x33 then
      match readLE 8 rest with
      | some (n, r) =>
        some (if n ≤ 2 ^ 53 - 1 then (.oint (n : Int), r) else (.obig (n : Int), r))
      | none => none
    else if tag = 0x35 then none
    else if tag = 0x36 then
      if rest.length < 8 then none else some (.ofloat (rest.take 8), rest.drop 8)
    else if 0x40 ≤ tag ∧ tag ≤ 0x60 then
      some (.ostr (rest.take (tag - 0x40)), rest.drop (tag - 0x40))
    else if tag = 0x61 then
      match rest with
      | len :: r => some (.ostr (r.take len), r.drop len)
      | [] => none
    else if tag = 0x62 then
      match readLE 2 rest with
      | some (len, r) => some (.ostr (r.take len), r.drop len)
      | none => none
    else if tag = 0x63 then
      match readLE 3 rest with
      | some (len, r) => some (.ostr (r.take len), r.drop len)
      | none => none
    else if tag = 0x64 then
      match readLE 4 rest with
      | some (len, r) => some (.ostr (r.take len), r.drop len)
      | none => none
    else if 0x70 ≤ tag ∧ tag ≤ 0x90 then
      some (.odata (rest.take (tag - 0x70)), rest.drop (tag - 0x70))
    else if tag = 0x91 then
      match rest with
      | len :: r => some (.odata (r.take len), r.drop len)
      | [] => none
    else if tag = 0x92 then
      match readLE 2 rest with
      | some (len, r) => some (.odata (r.take len), r.drop len)
      | none => none
    else if tag = 0x93 then
      match readLE 4 rest with
      | some (len, r) => some (.odata (r.take len), r.drop len)
      | none => none
    else if 0xd0 ≤ tag ∧ tag ≤ 0xde then
      match decodeListNF fuel (tag - 0xd0) rest with
      | some (vs, r) => some (.oarr vs, r)
      | none => none
    else if tag = 0xdf then
      match decodeListTermF fuel rest with
      | some (vs, r) => some (.oarr vs, r)
      | none => none
    else if 0xe0 ≤ tag ∧ tag ≤ 0xee then
      match decodePairsNF fuel (tag - 0xe0) rest with
      | some (ps, r) => some (.odict ps, r)
      | none => none
    else if tag = 0xef then
      match decodePairsTermF fuel rest with
      | some (ps, r) => some (.odict ps, r)
      | none => none
    else none

/-- `decodeArrayN`: exactly `count` values. -/
def decodeListNF : Nat → Nat → List Nat → Option (List OVal × List Nat)
  | 0, _, _ => none
  | _ + 1, 0, buf => some ([], buf)
  | fuel + 1, count + 1, buf =>
    match decodeValueF fuel buf with
    | none => none
    | some (v, r) =>
      match decodeListNF fuel count r with
      | none => none
      | some (vs, r2) => some (v :: vs, r2)

/-- `decodeArrayTerminated`: values until a 0x03 byte (skipped) or the end
of the buffer. -/
def decodeListTermF : Nat → List Nat → Option (List OVal × List Nat)
  | 0, _ => none
  | _ + 1, [] => some ([], [])
  | fuel + 1, b :: r =>
    if b = 0x03 then some ([], r)
    else
      match decodeValueF fuel (b :: r) with
      | none => none
      | some (v, r2) =>
        match decodeListTermF fuel r2 with
        | none => none
        | some (vs, r3) => some (v :: vs, r3)

/-- `decodeDictN`: exactly `count` key-value pairs. -/
def decodePairsNF : Nat → Nat → List Nat → Option (List (OVal × OVal) × List Nat)
  | 0, _, _ => none
  | _ + 1, 0, buf => some ([], buf)
  | fuel + 1, count + 1, buf =>
    match decodeValueF fuel buf with
    | none => none
    | some (k, r) =>
      match decodeValueF fuel r with
      | none => none
      | some (v, r2) =>
        match decodePairsNF fuel count r2 with
        | none => none
        | some (ps, r3) => some ((k, v) :: ps, r3)

/-- `decodeDictTerminated`: pairs until a 0x03 byte (skipped) or the end of
the buffer. -/
def decodePairsTermF : Nat → List Nat → Option (List (OVal × OVal) × List Nat)
  | 0, _ => none
  | _ + 1, [] => some ([], [])
  | fuel + 1, b :: r =>
    if b = 0x03 then some ([], r)
    else
      match decodeValueF fuel (b :: r) with
      | none => none
      | some (k, r2) =>
        match decodeValueF fuel r2 with
        | none => none
        | some (v, r3) =>
          match decodePairsTermF fuel r3 with
          | none => none
          | some (ps, r4) => some ((k, v) :: ps, r4)
end

/-- `opackDecode`: `decodeValue(buffer, 0).value`, trailing bytes ignored;
`none` models a throw. -/
def opackDecode (buffer : List Nat) : Option OVal :=
  (decodeValueF (2 * buffer.length + 2) buffer).map (fun r => r.1)

mutual
/-- Structural equality on OPACK values (JS `SameValueZero` for the
primitive constructors; used to model `Map` key lookups with primitive
needles and to state key distinctness). -/
def obeq : OVal → OVal → Bool
  | .onull, .onull => true
  | .obool a, .obool b => a == b
  | .oint a, .oint b => a == b
  | .obig a, .obig b => a == b
  | .ofloat a, .ofloat b => a == b
  | .ostr a, .ostr b => a == b
  | .odata a, .odata b => a == b
  | .oarr a, .oarr b => obeqList a b
  | .odict a, .odict b => obeqPairs a b
  | _, _ => false

def obeqList : List OVal → List OVal → Bool
  | [], [] => true
  | x :: xs, y :: ys => obeq x y && obeqList xs ys
  | _, _ => false

def obeqPairs : List (OVal × OVal) → List (OVal × OVal) → Bool
  | [], [] => true
  | p :: ps, q :: qs => obeq p.1 q.1 && (obeq p.2 q.2 && obeqPairs ps qs)
  | _, _ => false
end

/-- Pairwise-distinct dict keys (a faithful image of a JS `Map`, whose keys
cannot structurally repeat for primitives). -/
def keysDistinct : List OVal → Bool
  | [] => true
  | k :: ks => ks.all (fun k2 => !(obeq k k2)) && keysDistinct ks

mutual
/-- The roundtrip domain of the amended claim: integer-valued numbers in
`[0, 2^53 − 1]` (exactly representable, decoded back as numbers), bigints in
`[2^53, 2^63 − 1]` (in `writeBigInt64LE` range, decoded back as bigints),
floats with 8 bytes, strings and byte sequences shorter than 2^32 (the
`writeUInt32LE` limit) with genuine bytes, arrays and `Map`s of such values,
`Map` keys structurally distinct. -/
def rtOk : OVal → Bool
  | .onull => true
  | .obool _ => true
  | .oint n => 0 ≤ n && n ≤ 2 ^ 53 - 1
  | .obig n => 2 ^ 53 ≤ n && n ≤ 2 ^ 63 - 1
  | .ofloat bs => bs.length == 8 && bs.all (fun b => b < 256)
  | .ostr bs => decide (bs.length < 2 ^ 32) && bs.all (fun b => b < 256)
  | .odata bs => decide (bs.length < 2 ^ 32) && bs.all (fun b => b < 256)
  | .oarr xs => rtOkList xs
  | .odict ps => keysDistinct (ps.map (fun p => p.1)) && rtOkPairs ps

def rtOkList : List OVal → Bool
  | [] => true
  | x :: xs => rtOk x && rtOkList xs

def rtOkPairs : List (OVal × OVal) → Bool
  | [] => true
  | p :: ps => rtOk p.1 && (rtOk p.2 && rtOkPairs ps)
end

/-- Modelled from the spec: the tag byte dictated by section 4.2's size
thresholds, written from the spec's words for comparison with the encoder
(`null=0x04, true=0x01, false=0x02, small integer 0..39 inline as 0x08+v,
int8/16/32/64 tags 0x30..0x33`, `float64 tag 0x36`, `string: inline tags
0x40+len for len ≤ 32 else 0x61..0x64`, `byte sequence: inline 0x70+len for
len ≤ 32 else 0x91/0x92/0x93`, `array: 0xD0+count for count < 15, else
0xDF`, `map: 0xE0+(count·2) for count < 15, else 0xEF`). -/
def specTag : OVal → Nat
  | .onull => 0x04
  | .obool true => 0x01
  | .obool false => 0x02
  | .oint n =>
    if 0 ≤ n ∧ n ≤ 39 then 8 + n.toNat
    else if 0 ≤ n ∧ n ≤ 0xff then 0x30
    else if 0 ≤ n ∧ n ≤ 0xffff then 0x31
    else if 0 ≤ n ∧ n ≤ 0xffffffff then 0x32
    else 0x33
  | .obig _ => 0x33
  | .ofloat _ => 0x36
  | .ostr bs =>
    if bs.length ≤ 0x20 then 0x40 + bs.length
    else if bs.length ≤ 0xff then 0x61
    else if bs.length ≤ 0xffff then 0x62
    else if bs.length ≤ 0xffffff then 0x63
    else 0x64
  | .odata bs =>
    if bs.length ≤ 0x20 then 0x70 + bs.length
    else if bs.length ≤ 0xff then 0x91
    else if bs.length ≤ 0xffff then 0x92
    else 0x93
  | .oarr xs => if xs.length < 15 then 0xd0 + xs.length else 0xdf
  | .odict ps => if ps.length < 15 then 0xe0 + ps.length * 2 else 0xef

/-- `true` exactly on dictionaries. -/
def isDict : OVal → Bool
  | .odict _ => true
  | _ => false

/-- Roundtrip property of a single value: decoding its encoding (with any
unconsumed suffix and any sufficient fuel) returns it exactly. -/
def RTp (v : OVal) : Prop :=
  ∀ (f : Nat) (rest : List Nat), 2 * (encodeValue v).length ≤ f →
    decodeValueF f (encodeValue v ++ rest) = some (v, rest)


/-! ## Companion transfer registry (`src/companion/connection.ts`)

`sendRequest` allocates `tid = this.transferId++`, stamps the outgoing map
with `_i` (identifier) and `_x` (tid) via `Map.set`, and registers a
pending completion under `tid`; `handleMessage` reads `_x` from an inbound
map and, when it is a number held in the registry, removes and fulfils that
entry, otherwise emits an event; the request timeout deletes its own entry
and rejects only its caller; `close` rejects every pending entry with a
closed-connection error and clears the registry.  The state kept here is
the `transferId` counter and the `pendingRequests` keys in insertion
order; numbers carried in `_x` are integer-valued and modelled as `oint`
(non-integer numbers are byte-modelled `ofloat` and never equal a stored
integer key in this embedding). -/

/-- JS `Map.get` with `obeq` (SameValueZero) key equality. -/
def mapGet (k : OVal) : List (OVal × OVal) → Option OVal
  | [] => none
  | (k2, v2) :: rest => if obeq k k2 then some v2 else mapGet k rest

/-- JS `Map.set`: replace the value in place if the key is present, else
append the pair. -/
def mapSet (k v : OVal) : List (OVal × OVal) → List (OVal × OVal)
  | [] => [(k, v)]
  | (k2, v2) :: rest => if obeq k k2 then (k2, v) :: rest else (k2, v2) :: mapSet k v rest

/-- Registry-relevant connection state. -/
structure CompState where
  transferId : Nat
  pending : List Nat
deriving DecidableEq

/-- Observable outcome of one registry operation. -/
inductive CompOutcome where
  | fulfilled (tid : Nat) (msg : List (OVal × OVal))
  | timedOut (tid : Nat)
  | closedErr (tid : Nat)
  | event (msg : List (OVal × OVal))
  | ignored

/-- `CompanionConnection.sendRequest` (registry part): returns the new
state, the allocated transfer id, and the stamped content map
(`'_i'` = bytes 0x5f 0x69, `'_x'` = bytes 0x5f 0x78). -/
def sendRequest (s : CompState) (identifier : List Nat)
    (content : List (OVal × OVal)) : CompState × Nat × List (OVal × OVal) :=
  let tid := s.transferId
  let c1 := mapSet (OVal.ostr [0x5f, 0x69]) (OVal.ostr identifier) content
  let c2 := mapSet (OVal.ostr [0x5f, 0x78]) (OVal.oint (tid : Int)) c1
  (⟨tid + 1, s.pending ++ [tid]⟩, tid, c2)

/-- `handleMessage` on a decrypted map: `_x` lookup, fulfil-and-remove on a
registry hit, event otherwise. -/
def handleDict (s : CompState) (ps : List (OVal × OVal)) : CompState × CompOutcome :=
  match mapGet (OVal.ostr [0x5f, 0x78]) ps with
  | some (OVal.oint n) =>
    if 0 ≤ n ∧ n.toNat ∈ s.pending then
      (⟨s.transferId, s.pending.erase n.toNat⟩, CompOutcome.fulfilled n.toNat ps)
    else (s, CompOutcome.event ps)
  | _ => (s, CompOutcome.event ps)

/-- `handleMessage`: non-`Map` values are dropped (`if (!(value instanceof
Map)) return`). -/
def handleMessage (s : CompState) (value : OVal) : CompState × CompOutcome :=
  match value with
  | OVal.odict ps => handleDict s ps
  | _ => (s, CompOutcome.ignored)

/-- The `setTimeout` callback registered by `sendRequest`: delete the own
entry and reject only this caller. -/
def timeoutFire (s : CompState) (tid : Nat) : CompState × CompOutcome :=
  (⟨s.transferId, s.pending.erase tid⟩, CompOutcome.timedOut tid)

/-- `close`: reject every pending entry with the closed-connection error,
then clear the registry. -/
def closeConn (s : CompState) : CompState × List CompOutcome :=
  (⟨s.transferId, []⟩, s.pending.map CompOutcome.closedErr)

/-! # Theorems -/

/-! ## TLV8 lemmas -/

/-- The decode loop only inspects its fuel through a lower bound. -/
theorem tlvDecodeLoop_irrel (fuel fuel' : Nat) (buf : List Nat)
    (acc : List (Nat × List Nat)) (h : buf.length ≤ fuel) (h' : buf.length ≤ fuel') :
    tlvDecodeLoop fuel buf acc = tlvDecodeLoop fuel' buf acc := by
  induction fuel generalizing fuel' buf acc with
  | zero =>
    have : buf = [] := List.eq_nil_of_length_eq_zero (by omega)
    subst this
    cases fuel' <;> rfl
  | succ fuel ih =>
    match buf, fuel' with
    | [], fuel' => cases fuel' <;> rfl
    | [tag], 0 => simp at h'
    | [tag], fuel' + 1 => rfl
    | tag :: len :: rest, 0 => simp at h'
    | tag :: len :: rest, fuel' + 1 =>
      simp only [tlvDecodeLoop]
      apply ih
      · have := List.length_drop len rest
        simp only [List.length_cons] at h
        omega
      · have := List.length_drop len rest
        simp only [List.length_cons] at h'
        omega

/-- Canonical-fuel form of the decode loop. -/
theorem tlvDecodeLoop_eq_run (fuel : Nat) (buf : List Nat) (acc : List (Nat × List Nat))
    (h : buf.length ≤ fuel) :
    tlvDecodeLoop fuel buf acc = tlvDecodeLoop buf.length buf acc :=
  tlvDecodeLoop_irrel fuel buf.length buf acc h (Nat.le_refl _)

/-- One step of the decode loop at canonical fuel. -/
theorem tlvRun_cons (tag len : Nat) (rest : List Nat) (acc : List (Nat × List Nat)) :
    tlvDecodeLoop (tag :: len :: rest).length (tag :: len :: rest) acc =
      tlvDecodeLoop (rest.drop len).length (rest.drop len) (tlvInsert tag (rest.take len) acc) := by
  simp only [List.length_cons, tlvDecodeLoop]
  apply tlvDecodeLoop_eq_run
  have := List.length_drop len rest
  omega

/-- The chunk emitter only inspects its fuel through a lower bound. -/
theorem tlvChunks_irrel (t : Nat) : ∀ (n : Nat) (v : List Nat) (fuel : Nat),
    v.length = n → v.length ≤ fuel → tlvChunks fuel t v = tlvChunks v.length t v := by
  intro n
  induction n using Nat.strong_induction_on with
  | _ n ih =>
    intro v fuel hn h
    match v, fuel with
    | [], 0 => rfl
    | [], fuel + 1 => rfl
    | b :: v', fuel + 1 =>
      have hpos : 0 < (b :: v').length := by simp
      obtain ⟨m, hm⟩ : ∃ m, (b :: v').length = m + 1 :=
        ⟨(b :: v').length - 1, by omega⟩
      rw [hm, tlvChunks, tlvChunks]
      · have hdlen : ((b :: v').drop 255).length = (b :: v').length - 255 :=
          List.length_drop 255 (b :: v')
        rw [ih ((b :: v').drop 255).length (by omega) _ fuel rfl (by omega),
          ih ((b :: v').drop 255).length (by omega) _ m rfl (by omega)]
      all_goals intro hnil; cases hnil

/-- Inserting a tag larger than everything in the accumulator appends. -/
theorem tlvInsert_append (t : Nat) (v : List Nat) (acc : List (Nat × List Nat))
    (h : ∀ q ∈ acc, q.1 < t) : tlvInsert t v acc = acc ++ [(t, v)] := by
  induction acc with
  | nil => rfl
  | cons e rest ih =>
    have he : e.1 < t := h e (List.mem_cons_self e rest)
    have h1 : ¬(e.1 = t) := by omega
    have h2 : ¬(t < e.1) := by omega
    simp only [tlvInsert, if_neg h1, if_neg h2, List.cons_append]
    rw [ih fun q hq => h q (List.mem_cons_of_mem e hq)]

/-- Inserting into an accumulator ending with the same tag concatenates. -/
theorem tlvInsert_concat (t : Nat) (v p : List Nat) (pre : List (Nat × List Nat))
    (h : ∀ q ∈ pre, q.1 < t) :
    tlvInsert t v (pre ++ [(t, p)]) = pre ++ [(t, p ++ v)] := by
  induction pre with
  | nil => simp [tlvInsert]
  | cons e rest ih =>
    have he : e.1 < t := h e (List.mem_cons_self e rest)
    have h1 : ¬(e.1 = t) := by omega
    have h2 : ¬(t < e.1) := by omega
    simp only [List.cons_append, tlvInsert, if_neg h1, if_neg h2, List.append_eq]
    rw [ih fun q hq => h q (List.mem_cons_of_mem e hq)]

/-- Decoding the chunk stream of a non-empty value extends the accumulator's
final entry for that tag by the whole value. -/
theorem tlvRun_chunks (t : Nat) (ht : t < 256) : ∀ (n : Nat) (v : List Nat),
    v.length = n → v ≠ [] → ∀ (p : List Nat) (pre : List (Nat × List Nat)) (rest : List Nat),
    (∀ q ∈ pre, q.1 < t) →
    tlvDecodeLoop (tlvChunks v.length t v ++ rest).length
        (tlvChunks v.length t v ++ rest) (pre ++ [(t, p)]) =
      tlvDecodeLoop rest.length rest (pre ++ [(t, p ++ v)]) := by
  intro n
  induction n using Nat.strong_induction_on with
  | _ n ih =>
    intro v hn hv p pre rest hpre
    match v with
    | [] => exact absurd rfl hv
    | b :: v' =>
      by_cases hle : (b :: v').length ≤ 255
      · have hd : (b :: v').drop 255 = [] := List.drop_eq_nil_of_le hle
        have htk : (b :: v').take 255 = b :: v' := List.take_of_length_le hle
        have hmin : min 255 (b :: v').length = (b :: v').length := by omega
        have hchunksnil : tlvChunks v'.length t [] = [] := by
          cases v'.length <;> rfl
        rw [show (b :: v').length = v'.length + 1 from rfl, tlvChunks, hd, htk,
          hchunksnil, hmin, List.append_nil]
        · rw [List.cons_append, List.cons_append, tlvRun_cons, Nat.mod_eq_of_lt ht]
          rw [List.take_left' rfl, List.drop_left' rfl,
            tlvInsert_concat t (b :: v') p pre hpre]
        · exact List.cons_ne_nil b v'
      · have hdlen : ((b :: v').drop 255).length = (b :: v').length - 255 :=
          List.length_drop 255 (b :: v')
        have hmin : min 255 (b :: v').length = 255 := by omega
        have htklen : ((b :: v').take 255).length = 255 := by
          rw [List.length_take]; omega
        have hdropne : (b :: v').drop 255 ≠ [] := by
          rw [← List.length_pos_iff_ne_nil]; omega
        rw [show (b :: v').length = v'.length + 1 from rfl, tlvChunks, hmin]
        · rw [List.cons_append, List.cons_append, List.append_assoc, tlvRun_cons,
            Nat.mod_eq_of_lt ht]
          rw [List.take_left' htklen, List.drop_left' htklen,
            tlvInsert_concat t ((b :: v').take 255) p pre hpre]
          have hlen2 : (b :: v').length = v'.length + 1 := rfl
          rw [tlvChunks_irrel t ((b :: v').drop 255).length ((b :: v').drop 255) v'.length
            rfl (by omega)]
          rw [ih ((b :: v').drop 255).length (by omega) ((b :: v').drop 255) rfl
            hdropne (p ++ (b :: v').take 255) pre rest hpre]
          rw [List.append_assoc, List.take_append_drop]
        · exact List.cons_ne_nil b v'

/-- Decoding one encoded entry whose tag exceeds everything in the
accumulator appends that entry. -/
theorem tlvRun_entry (t : Nat) (ht : t < 256) (v : List Nat)
    (pre : List (Nat × List Nat)) (rest : List Nat) (hpre : ∀ q ∈ pre, q.1 < t) :
    tlvDecodeLoop (tlvEncodeEntry t v ++ rest).length (tlvEncodeEntry t v ++ rest) pre =
      tlvDecodeLoop rest.length rest (pre ++ [(t, v)]) := by
  match v with
  | [] =>
    rw [show tlvEncodeEntry t [] = [t % 256, 0] from rfl]
    rw [List.cons_append, List.cons_append, List.nil_append, tlvRun_cons,
      Nat.mod_eq_of_lt ht, List.take_zero, List.drop_zero, tlvInsert_append t [] pre hpre]
  | b :: v' =>
    have hne : ¬((b :: v').length = 0) := by simp
    simp only [tlvEncodeEntry, if_neg hne]
    by_cases hle : (b :: v').length ≤ 255
    · have hd : (b :: v').drop 255 = [] := List.drop_eq_nil_of_le hle
      have htk : (b :: v').take 255 = b :: v' := List.take_of_length_le hle
      have hmin : min 255 (b :: v').length = (b :: v').length := by omega
      have hchunksnil : tlvChunks v'.length t [] = [] := by
        cases v'.length <;> rfl
      rw [show (b :: v').length = v'.length + 1 from rfl, tlvChunks, hd, htk,
        hchunksnil, hmin, List.append_nil]
      · rw [List.cons_append, List.cons_append, tlvRun_cons, Nat.mod_eq_of_lt ht]
        rw [List.take_left' rfl, List.drop_left' rfl,
          tlvInsert_append t (b :: v') pre hpre]
      · exact List.cons_ne_nil b v'
    · have hdlen : ((b :: v').drop 255).length = (b :: v').length - 255 :=
        List.length_drop 255 (b :: v')
      have hlen2 : (b :: v').length = v'.length + 1 := rfl
      have hmin : min 255 (b :: v').length = 255 := by omega
      have htklen : ((b :: v').take 255).length = 255 := by
        rw [List.length_take]; omega
      have hdropne : (b :: v').drop 255 ≠ [] := by
        rw [← List.length_pos_iff_ne_nil]; omega
      rw [show (b :: v').length = v'.length + 1 from rfl, tlvChunks, hmin]
      · rw [List.cons_append, List.cons_append, List.append_assoc, tlvRun_cons,
          Nat.mod_eq_of_lt ht]
        rw [List.take_left' htklen, List.drop_left' htklen,
          tlvInsert_append t ((b :: v').take 255) pre hpre]
        rw [tlvChunks_irrel t ((b :: v').drop 255).length ((b :: v').drop 255) v'.length
          rfl (by omega)]
        rw [tlvRun_chunks t ht ((b :: v').drop 255).length ((b :: v').drop 255) rfl
          hdropne ((b :: v').take 255) pre rest hpre]
        rw [List.take_append_drop]
      · exact List.cons_ne_nil b v'

/-- Decoding the concatenated emissions of ascending-tagged entries appends
them all to the accumulator. -/
theorem tlvRun_entries : ∀ (m acc : List (Nat × List Nat)),
    List.Pairwise (fun a b => a.1 < b.1) m → (∀ e ∈ m, e.1 < 256) →
    (∀ q ∈ acc, ∀ e ∈ m, q.1 < e.1) →
    tlvDecodeLoop (tlvEntriesBytes m).length (tlvEntriesBytes m) acc = acc ++ m := by
  intro m
  induction m with
  | nil =>
    intro acc _ _ _
    simp [tlvEntriesBytes, tlvDecodeLoop]
  | cons e m' ih =>
    intro acc hsort hbound hacc
    have ht : e.1 < 256 := hbound e (List.mem_cons_self e m')
    have hpre : ∀ q ∈ acc, q.1 < e.1 := fun q hq => hacc q hq e (List.mem_cons_self e m')
    rw [show tlvEntriesBytes (e :: m') = tlvEncodeEntry e.1 e.2 ++ tlvEntriesBytes m'
      from rfl]
    rw [tlvRun_entry e.1 ht e.2 acc (tlvEntriesBytes m') hpre]
    have hstep : acc ++ [(e.1, e.2)] = acc ++ [e] := by simp
    rw [hstep, ih (acc ++ [e]) (List.pairwise_cons.mp hsort).2
      (fun f hf => hbound f (List.mem_cons_of_mem e hf))
      (fun q hq f hf => by
        rcases List.mem_append.mp hq with h | h
        · exact hacc q h f (List.mem_cons_of_mem e hf)
        · simp only [List.mem_singleton] at h
          subst h
          exact (List.pairwise_cons.mp hsort).1 f hf)]
    simp

/-- A `TlvData` object literal whose keys already ascend enumerates as
written. -/
theorem jsObjEntries_sorted (m : List (Nat × List Nat))
    (h : List.Pairwise (fun a b => a.1 < b.1) m) : jsObjEntries m = m := by
  induction m with
  | nil => rfl
  | cons e m' ih =>
    rw [show jsObjEntries (e :: m') = insertEntry e (jsObjEntries m') from rfl,
      ih h.tail]
    match m' with
    | [] => rfl
    | f :: rest =>
      have hef : e.1 < f.1 := (List.pairwise_cons.mp h).1 f (List.mem_cons_self f rest)
      simp [insertEntry, Nat.le_of_lt hef]

/-- A short value (`≤ 255` bytes) emits a single `tag, length, value` chunk. -/
theorem tlvEncodeEntry_single (t : Nat) (v : List Nat) (hv : v ≠ [])
    (hle : v.length ≤ 255) : tlvEncodeEntry t v = (t % 256) :: v.length :: v := by
  match v with
  | b :: v' =>
    have hne : ¬((b :: v').length = 0) := by simp
    have hd : (b :: v').drop 255 = [] := List.drop_eq_nil_of_le hle
    have htk : (b :: v').take 255 = b :: v' := List.take_of_length_le hle
    have hlen2 : (b :: v').length = v'.length + 1 := rfl
    have hmin : min 255 (b :: v').length = v'.length + 1 := by omega
    have hchunksnil : tlvChunks v'.length t [] = [] := by
      cases v'.length <;> rfl
    simp only [tlvEncodeEntry, if_neg hne]
    rw [show (b :: v').length = v'.length + 1 from rfl, tlvChunks, hd, htk,
      hchunksnil, hmin, List.append_nil]
    exact List.cons_ne_nil b v'

/-- A long value (`> 255` bytes) emits a 255-byte chunk and recurses on the
remainder. -/
theorem tlvEncodeEntry_frag (t : Nat) (v : List Nat) (hgt : 255 < v.length) :
    tlvEncodeEntry t v =
      ((t % 256) :: 255 :: v.take 255) ++ tlvEncodeEntry t (v.drop 255) := by
  match v with
  | b :: v' =>
    have hne : ¬((b :: v').length = 0) := by simp
    have hdlen : ((b :: v').drop 255).length = (b :: v').length - 255 :=
      List.length_drop 255 (b :: v')
    have hlen2 : (b :: v').length = v'.length + 1 := rfl
    have hmin : min 255 (b :: v').length = 255 := by omega
    have hdropne : ¬(((b :: v').drop 255).length = 0) := by omega
    simp only [tlvEncodeEntry, if_neg hne, if_neg hdropne]
    rw [show (b :: v').length = v'.length + 1 from rfl, tlvChunks, hmin]
    · rw [tlvChunks_irrel t ((b :: v').drop 255).length ((b :: v').drop 255) v'.length
        rfl (by omega)]
      simp
    · exact List.cons_ne_nil b v'

/-- **C4** — TLV8 roundtrip and fragmentation.  For every map from 8-bit tags
to byte strings (values up to 4 KB; maps modelled canonically with ascending,
distinct tags, matching a JS object's integer-key enumeration),
`tlvDecode (tlvEncode m) = m`.  A non-empty value of at most 255 bytes emits
one `tag, length, value` chunk; a longer value emits `tag, 255` plus 255
bytes and fragments the remainder; an empty value emits `tag, 0`. -/
theorem tlv8_roundtrip :
    (∀ m : List (Nat × List Nat),
        List.Pairwise (fun a b => a.1 < b.1) m →
        (∀ e ∈ m, e.1 < 256 ∧ e.2.length ≤ 4096) →
        tlvDecode (tlvEncode m) = m) ∧
    (∀ t v, t < 256 → v ≠ [] → v.length ≤ 255 →
        tlvEncodeEntry t v = t :: v.length :: v) ∧
    (∀ t v, t < 256 → 255 < v.length →
        tlvEncodeEntry t v = (t :: 255 :: v.take 255) ++ tlvEncodeEntry t (v.drop 255)) ∧
    (∀ t, t < 256 → tlvEncodeEntry t [] = [t, 0]) := by
  refine ⟨?_, ?_, ?_, ?_⟩
  · intro m hsort hbound
    rw [show tlvEncode m = tlvEntriesBytes (jsObjEntries m) from rfl,
      jsObjEntries_sorted m hsort]
    rw [show tlvDecode (tlvEntriesBytes m) =
      tlvDecodeLoop (tlvEntriesBytes m).length (tlvEntriesBytes m) [] from rfl]
    rw [tlvRun_entries m [] hsort (fun e he => (hbound e he).1) (by simp)]
    simp
  · intro t v ht hv hle
    rw [tlvEncodeEntry_single t v hv hle, Nat.mod_eq_of_lt ht]
  · intro t v ht hgt
    rw [tlvEncodeEntry_frag t v hgt, Nat.mod_eq_of_lt ht]
  · intro t ht
    rw [show tlvEncodeEntry t [] = [t % 256, 0] from rfl, Nat.mod_eq_of_lt ht]

/-- Witness for `tlv8_roundtrip` at concrete inputs, including a fragmented
300-byte value. -/
theorem tlv8_roundtrip_witness :
    tlvDecode (tlvEncode [(3, List.replicate 300 0xBB), (6, [0x01])]) =
        [(3, List.replicate 300 0xBB), (6, [0x01])] ∧
    tlvEncodeEntry 3 [7, 8] = 3 :: (2 : Nat) :: [7, 8] ∧
    tlvEncodeEntry 3 (List.replicate 300 0xBB) =
        (3 :: 255 :: (List.replicate 300 0xBB).take 255) ++
          tlvEncodeEntry 3 ((List.replicate 300 0xBB).drop 255) ∧
    tlvEncodeEntry 9 [] = [9, 0] :=
  ⟨tlv8_roundtrip.1 [(3, List.replicate 300 0xBB), (6, [0x01])] (by decide) (by decide),
   tlv8_roundtrip.2.1 3 [7, 8] (by decide) (by decide) (by decide),
   tlv8_roundtrip.2.2.1 3 (List.replicate 300 0xBB) (by decide) (by decide),
   tlv8_roundtrip.2.2.2 9 (by decide)⟩

/-- **C1** (claimed order is violated) — `PairVerify.buildM1` (and the
identical Companion / in-socket AirPlay constructions) encodes the TLV object
`{ SeqNo: [1], PublicKey: eph }` with `Object.entries`, which enumerates
integer keys in ascending order: the PublicKey entry (tag 0x03) is emitted
before the Sequence entry (tag 0x06), evaluated here at a concrete 32-byte
ephemeral key. -/
theorem buildM1_publicKey_precedes_seqNo :
    buildM1 (List.replicate 32 0xAA) =
      0x03 :: 0x20 :: (List.replicate 32 0xAA ++ [0x06, 0x01, 0x01]) := by
  decide

/-! ## Companion framing lemmas -/

/-- The frame-parsing loop only inspects its fuel through a lower bound. -/
theorem parseFramesLoop_irrel (fuel fuel' : Nat) (buf : List Nat)
    (h : buf.length ≤ fuel) (h' : buf.length ≤ fuel') :
    parseFramesLoop fuel buf = parseFramesLoop fuel' buf := by
  induction fuel generalizing fuel' buf with
  | zero =>
    have : buf = [] := List.eq_nil_of_length_eq_zero (by omega)
    subst this
    cases fuel' <;> rfl
  | succ fuel ih =>
    match buf, fuel' with
    | [], fuel' => cases fuel' <;> rfl
    | [a], 0 => simp at h'
    | [a], fuel' + 1 => rfl
    | [a, b], 0 => simp at h'
    | [a, b], fuel' + 1 => rfl
    | [a, b, c], 0 => simp at h'
    | [a, b, c], fuel' + 1 => rfl
    | t :: b1 :: b2 :: b3 :: rest, 0 => simp at h'
    | t :: b1 :: b2 :: b3 :: rest, fuel' + 1 =>
      simp only [parseFramesLoop]
      have hdl := List.length_drop (b1 * 65536 + b2 * 256 + b3) rest
      simp only [List.length_cons] at h h'
      rw [ih fuel' (rest.drop (b1 * 65536 + b2 * 256 + b3)) (by omega) (by omega)]

/-- Parsed frames re-encode, with the remainder, to the original buffer. -/
theorem parseFramesLoop_reconstruct (fuel : Nat) : ∀ buf : List Nat,
    buf.length ≤ fuel → (∀ x ∈ buf, x < 256) →
    framesBytes (parseFramesLoop fuel buf).1 ++ (parseFramesLoop fuel buf).2 = buf := by
  induction fuel with
  | zero =>
    intro buf h _
    have : buf = [] := List.eq_nil_of_length_eq_zero (by omega)
    subst this
    rfl
  | succ fuel ih =>
    intro buf h hbyte
    match buf with
    | [] => rfl
    | [a] => rfl
    | [a, b] => rfl
    | [a, b, c] => rfl
    | t :: b1 :: b2 :: b3 :: rest =>
      simp only [parseFramesLoop]
      by_cases hcut : rest.length < b1 * 65536 + b2 * 256 + b3
      · rw [if_pos hcut]; rfl
      · rw [if_neg hcut]
        have hdl := List.length_drop (b1 * 65536 + b2 * 256 + b3) rest
        simp only [List.length_cons] at h
        have hrec := ih (rest.drop (b1 * 65536 + b2 * 256 + b3)) (by omega)
          (fun x hx => hbyte x (by
            simp only [List.mem_cons]
            exact Or.inr <| Or.inr <| Or.inr <| Or.inr <| List.mem_of_mem_drop hx))
        simp only [framesBytes, List.append_assoc, hrec]
        have ht : t < 256 := hbyte t (by simp)
        have hb1 : b1 < 256 := hbyte b1 (by simp)
        have hb2 : b2 < 256 := hbyte b2 (by simp)
        have hb3 : b3 < 256 := hbyte b3 (by simp)
        have htl : (rest.take (b1 * 65536 + b2 * 256 + b3)).length =
            b1 * 65536 + b2 * 256 + b3 := by
          rw [List.length_take]; omega
        simp only [encodeFrame, htl, List.cons_append, List.take_append_drop]
        have e1 : (b1 * 65536 + b2 * 256 + b3) / 65536 % 256 = b1 := by omega
        have e2 : (b1 * 65536 + b2 * 256 + b3) / 256 % 256 = b2 := by omega
        have e3 : (b1 * 65536 + b2 * 256 + b3) % 256 = b3 := by omega
        rw [Nat.mod_eq_of_lt ht, e1, e2, e3]

/-- Parsing the encoding of a frame list followed by an incomplete suffix
returns exactly those frames and leaves the suffix untouched. -/
theorem parseFrames_exact : ∀ (fs : List (Nat × List Nat)) (s : List Nat),
    (∀ f ∈ fs, f.1 < 256 ∧ f.2.length < 2 ^ 24) →
    frameIncomplete s = true →
    parseFrames (framesBytes fs ++ s) = (fs, s) := by
  intro fs
  induction fs with
  | nil =>
    intro s _ hinc
    rw [show framesBytes [] ++ s = s from by simp [framesBytes]]
    match s with
    | [] => rfl
    | [a] => rfl
    | [a, b] => rfl
    | [a, b, c] => rfl
    | t :: b1 :: b2 :: b3 :: rest =>
      simp only [frameIncomplete, decide_eq_true_eq] at hinc
      simp only [parseFrames, List.length_cons, parseFramesLoop, if_pos hinc]
  | cons f fs' ih =>
    intro s hf hinc
    obtain ⟨ht, hlen⟩ := hf f (List.mem_cons_self f fs')
    have e1 : f.2.length / 65536 % 256 * 65536 + f.2.length / 256 % 256 * 256 +
        f.2.length % 256 = f.2.length := by omega
    have hstream : framesBytes (f :: fs') ++ s =
        f.1 :: (f.2.length / 65536 % 256) :: (f.2.length / 256 % 256) ::
          (f.2.length % 256) :: (f.2 ++ (framesBytes fs' ++ s)) := by
      simp [framesBytes, encodeFrame, Nat.mod_eq_of_lt ht, List.append_assoc]
    rw [hstream]
    simp only [parseFrames, List.length_cons, parseFramesLoop, e1]
    have hcut : ¬((f.2 ++ (framesBytes fs' ++ s)).length < f.2.length) := by
      simp only [List.length_append]; omega
    rw [if_neg hcut]
    rw [List.take_left' rfl, List.drop_left' rfl]
    have hfuel : (framesBytes fs' ++ s).length ≤
        (f.2 ++ (framesBytes fs' ++ s)).length + 3 := by
      simp only [List.length_append]; omega
    rw [parseFramesLoop_irrel ((f.2 ++ (framesBytes fs' ++ s)).length + 3)
      (framesBytes fs' ++ s).length (framesBytes fs' ++ s) hfuel (Nat.le_refl _)]
    have := ih s (fun g hg => hf g (List.mem_cons_of_mem f hg)) hinc
    simp only [parseFrames] at this
    rw [this]

/-- **C7** — the Companion frame parser returns exactly the complete frames
at the front of the buffer, in order, with the unconsumed suffix as
remainder: re-encoding the frames and appending the remainder reproduces the
input, and for a stream of whole frames followed by an incomplete tail
(partial header, or declared payload not fully present) the parse returns
precisely those frames and the untouched tail. -/
theorem companion_parseFrames_exact :
    (∀ buf : List Nat, (∀ x ∈ buf, x < 256) →
        framesBytes (parseFrames buf).1 ++ (parseFrames buf).2 = buf) ∧
    (∀ (fs : List (Nat × List Nat)) (s : List Nat),
        (∀ f ∈ fs, f.1 < 256 ∧ f.2.length < 2 ^ 24) →
        frameIncomplete s = true →
        parseFrames (framesBytes fs ++ s) = (fs, s)) :=
  ⟨fun buf hb => parseFramesLoop_reconstruct buf.length buf (Nat.le_refl _) hb,
   parseFrames_exact⟩

/-- Witness for `companion_parseFrames_exact`: one complete `E_OPACK` frame
followed by a partial header. -/
theorem companion_parseFrames_exact_witness :
    framesBytes (parseFrames [8, 0, 0, 2, 1, 2, 5, 0]).1 ++
        (parseFrames [8, 0, 0, 2, 1, 2, 5, 0]).2 = [8, 0, 0, 2, 1, 2, 5, 0] ∧
    parseFrames (framesBytes [(8, [1, 2])] ++ [5, 0]) = ([(8, [1, 2])], [5, 0]) :=
  ⟨companion_parseFrames_exact.1 [8, 0, 0, 2, 1, 2, 5, 0] (by decide),
   companion_parseFrames_exact.2 [(8, [1, 2])] [5, 0] (by decide) (by decide)⟩

/-! ## Varint lemmas -/

/-- Or-ing below a power of two with a multiple of it is addition. -/
theorem lor_low_mul_pow (a c s : Nat) (ha : a < 2 ^ s) :
    a ||| (2 ^ s * c) = 2 ^ s * c + a := by
  apply Nat.eq_of_testBit_eq
  intro i
  rw [Nat.testBit_lor, Nat.testBit_mul_pow_two_add c ha i]
  by_cases h : i < s
  · rw [if_pos h, Nat.testBit_mul_pow_two]
    have hns : ¬(s ≤ i) := by omega
    simp [hns]
  · rw [if_neg h, Nat.testBit_mul_pow_two]
    have hsle : s ≤ i := by omega
    have ha2 : a < 2 ^ i := lt_of_lt_of_le ha (Nat.pow_le_pow_right (by norm_num) hsle)
    simp [hsle, Nat.testBit_eq_false_of_lt ha2]

theorem and_127_eq_mod (v : Nat) : v &&& 127 = v % 128 := by
  have := Nat.and_pow_two_sub_one_eq_mod v 7
  simpa using this

theorem toInt32_of_lt (n : Nat) (h : n < 2 ^ 31) : toInt32 n = (n : Int) := by
  have h32 : n % 2 ^ 32 = n := Nat.mod_eq_of_lt (by omega)
  unfold toInt32
  rw [h32, if_pos h]

theorem toUint32_coe (n : Nat) (h : n < 2 ^ 32) : toUint32 ((n : Int)) = n := by
  unfold toUint32
  rw [Int.emod_eq_of_lt (by positivity) (by exact_mod_cast h)]
  simp

/-- One or-accumulation step of `decodeVarint` is pure addition while
everything stays below 2^31. -/
theorem jsOr32_step (acc b s : Nat) (hacc : acc < 2 ^ s) (hs : s < 32)
    (hb : b * 2 ^ s < 2 ^ 31) :
    jsOr32 ((acc : Nat) : Int) (jsShl32 b s) = ((b * 2 ^ s + acc : Nat) : Int) := by
  have hs32 : s % 32 = s := Nat.mod_eq_of_lt hs
  have hshl : b <<< (s % 32) = b * 2 ^ s := by rw [hs32, Nat.shiftLeft_eq]
  have hcomm : b * 2 ^ s = 2 ^ s * b := Nat.mul_comm _ _
  have hacc31 : acc < 2 ^ 31 := by
    calc acc < 2 ^ s := hacc
    _ ≤ 2 ^ 31 := Nat.pow_le_pow_right (by norm_num) (by omega)
  have hs31 : s ≤ 31 := by omega
  have hsplit : (2 : Nat) ^ 31 = 2 ^ s * 2 ^ (31 - s) := by
    rw [← Nat.pow_add]
    congr 1
    omega
  have hblt : b + 1 ≤ 2 ^ (31 - s) := by
    by_contra hcon
    push_neg at hcon
    have hge : 2 ^ s * 2 ^ (31 - s) ≤ 2 ^ s * b := Nat.mul_le_mul_left _ (by omega)
    omega
  have hsum : 2 ^ s * b + acc < 2 ^ 31 := by
    have h1 : 2 ^ s * (b + 1) ≤ 2 ^ s * 2 ^ (31 - s) := Nat.mul_le_mul_left _ hblt
    have h2 : 2 ^ s * (b + 1) = 2 ^ s * b + 2 ^ s := by ring
    omega
  rw [jsShl32, hshl, toInt32_of_lt _ (by omega)]
  rw [jsOr32, toUint32_coe acc (by omega), toUint32_coe (b * 2 ^ s) (by omega)]
  rw [hcomm, lor_low_mul_pow acc b s hacc]
  rw [toInt32_of_lt _ (by omega)]

/-- Decoding the encoder's output at shift position `s` adds `v · 2^s` to the
accumulator and counts the emitted bytes. -/
theorem decodeVarint_encodeVarint_aux : ∀ (fuel v s acc br : Nat),
    v < 2 ^ (7 * fuel + 7) → v * 2 ^ s < 2 ^ 31 → s < 32 → acc < 2 ^ s →
    decodeVarintLoop (encodeVarintLoop fuel v) ((acc : Nat) : Int) s br =
      (((acc + v * 2 ^ s : Nat) : Int), br + (encodeVarintLoop fuel v).length) := by
  intro fuel
  induction fuel with
  | zero =>
    intro v s acc br hv hvs hs hacc
    have hv128 : v < 128 := by
      have : (2 : Nat) ^ (7 * 0 + 7) = 128 := by norm_num
      omega
    have hvv : v &&& 127 = v := by
      rw [and_127_eq_mod]; exact Nat.mod_eq_of_lt hv128
    have hstop : v &&& 128 = 0 := by
      have := Nat.and_two_pow v 7
      rw [Nat.testBit_eq_false_of_lt (show v < 2 ^ 7 from hv128)] at this
      simpa using this
    simp only [encodeVarintLoop, decodeVarintLoop, hvv, hstop]
    rw [jsOr32_step acc v s hacc hs hvs]
    simp only [beq_self_eq_true, if_pos, List.length_cons, List.length_nil,
      Prod.mk.injEq]
    exact ⟨by congr 1; omega, trivial⟩
  | succ fuel ih =>
    intro v s acc br hv hvs hs hacc
    by_cases hbig : 127 < v
    · have hmod : v &&& 127 = v % 128 := and_127_eq_mod v
      have hbyte : (v &&& 127) ||| 128 = v % 128 + 128 := by
        have h128 : v % 128 ||| 2 ^ 7 * 1 = 2 ^ 7 * 1 + v % 128 :=
          lor_low_mul_pow (v % 128) 1 7 (Nat.mod_lt v (by norm_num))
        norm_num at h128
        rw [hmod, h128]
        omega
      have hbyteand : (v % 128 + 128) &&& 127 = v % 128 := by
        rw [and_127_eq_mod]
        omega
      have hbit7 : (v % 128 + 128) &&& 128 = 128 := by
        have ht : (v % 128 + 128).testBit 7 = true := by
          have h1 : v % 128 + 128 = 2 ^ 7 * 1 + v % 128 := by omega
          rw [h1, Nat.testBit_mul_pow_two_add 1 (Nat.mod_lt v (by norm_num)) 7]
          simp
        have hand := Nat.and_two_pow (v % 128 + 128) 7
        rw [ht] at hand
        simpa using hand
      simp only [encodeVarintLoop, if_pos hbig, decodeVarintLoop, hbyte, hbyteand,
        hbit7, show ((128 : Nat) == 0) = false from rfl, Bool.false_eq_true, if_false]
      have hv7 : v >>> 7 = v / 128 := Nat.shiftRight_eq_div_pow v 7
      have hstep : v % 128 * 2 ^ s < 2 ^ 31 := by
        have : v % 128 * 2 ^ s ≤ v * 2 ^ s :=
          Nat.mul_le_mul_right _ (Nat.mod_le v 128)
        omega
      rw [jsOr32_step acc (v % 128) s hacc hs hstep]
      have hs7 : s + 7 < 32 := by
        have h2 : 2 ^ 7 * 2 ^ s ≤ v * 2 ^ s := Nat.mul_le_mul_right _ (by omega)
        have h3 : 2 ^ (s + 7) < 2 ^ 31 := by
          calc 2 ^ (s + 7) = 2 ^ 7 * 2 ^ s := by ring
          _ ≤ v * 2 ^ s := h2
          _ < 2 ^ 31 := hvs
        by_contra hcon
        have : (2 : Nat) ^ 31 ≤ 2 ^ (s + 7) :=
          Nat.pow_le_pow_right (by norm_num) (by omega)
        omega
      have hvdiv : v / 128 < 2 ^ (7 * fuel + 7) := by
        have hpow : (2 : Nat) ^ (7 * (fuel + 1) + 7) = 2 ^ (7 * fuel + 7) * 128 := by
          rw [show 7 * (fuel + 1) + 7 = (7 * fuel + 7) + 7 from by ring, Nat.pow_add]
        rw [Nat.div_lt_iff_lt_mul (by norm_num)]
        omega
      have hvdivs : v / 128 * 2 ^ (s + 7) < 2 ^ 31 := by
        have : v / 128 * 2 ^ (s + 7) ≤ v * 2 ^ s := by
          rw [show (2 : Nat) ^ (s + 7) = 2 ^ s * 128 from by rw [Nat.pow_add]]
          calc v / 128 * (2 ^ s * 128) = v / 128 * 128 * 2 ^ s := by ring
          _ ≤ v * 2 ^ s := Nat.mul_le_mul_right _ (Nat.div_mul_le_self v 128)
        omega
      have haccnext : v % 128 * 2 ^ s + acc < 2 ^ (s + 7) := by
        have h1 : v % 128 ≤ 127 := by omega
        have h2 : v % 128 * 2 ^ s ≤ 127 * 2 ^ s := Nat.mul_le_mul_right _ h1
        have h3 : (2 : Nat) ^ (s + 7) = 128 * 2 ^ s := by rw [Nat.pow_add]; ring
        omega
      rw [hv7, ih (v / 128) (s + 7) (v % 128 * 2 ^ s + acc) (br + 1) hvdiv hvdivs hs7
        haccnext]
      rw [Prod.mk.injEq]
      constructor
      · congr 1
        have h3 : (2 : Nat) ^ (s + 7) = 2 ^ s * 128 := by rw [Nat.pow_add]
        rw [h3]
        have hvd : v % 128 + 128 * (v / 128) = v := Nat.mod_add_div v 128
        calc v % 128 * 2 ^ s + acc + v / 128 * (2 ^ s * 128)
            = acc + (v % 128 + 128 * (v / 128)) * 2 ^ s := by ring
        _ = acc + v * 2 ^ s := by rw [hvd]
      · simp only [List.length_cons]
        omega
    · have hv128 : v < 128 := by omega
      have hvv : v &&& 127 = v := by
        rw [and_127_eq_mod]; exact Nat.mod_eq_of_lt hv128
      have hstop : v &&& 128 = 0 := by
        have := Nat.and_two_pow v 7
        rw [Nat.testBit_eq_false_of_lt (show v < 2 ^ 7 from hv128)] at this
        simpa using this
      simp only [encodeVarintLoop, if_neg hbig, decodeVarintLoop, hvv, hstop]
      rw [jsOr32_step acc v s hacc hs hvs]
      simp only [beq_self_eq_true, if_pos, List.length_cons, List.length_nil,
        Prod.mk.injEq]
      exact ⟨by congr 1; omega, trivial⟩

/-- **C9** — for every `v` with `0 ≤ v < 2^31`,
`decodeVarint (encodeVarint v)` returns `v` with `bytesRead` equal to the
encoding's length; beyond that range the 32-bit signed accumulation breaks
the roundtrip, witnessed at `v = 2^31`. -/
theorem varint_roundtrip :
    (∀ v : Nat, v < 2 ^ 31 →
        decodeVarint (encodeVarint v) = ((v : Int), (encodeVarint v).length)) ∧
    decodeVarint (encodeVarint (2 ^ 31)) ≠
      (((2 ^ 31 : Nat) : Int), (encodeVarint (2 ^ 31)).length) := by
  constructor
  · intro v hv
    have := decodeVarint_encodeVarint_aux 5 v 0 0 0 (by omega) (by omega)
      (by norm_num) (by norm_num)
    simpa [decodeVarint, encodeVarint] using this
  · decide

/-- Witness for `varint_roundtrip` at `v = 300`. -/
theorem varint_roundtrip_witness :
    decodeVarint (encodeVarint 300) = ((300 : Int), (encodeVarint 300).length) :=
  varint_roundtrip.1 300 (by decide)

/-! ## HAP session lemmas -/

/-- Frame count, final counter, chunk bounds and per-invocation nonces of the
encrypt loop. -/
theorem hapEncryptChunks_spec
    (cipher : List Nat → List Nat → List Nat → List Nat → List Nat × List Nat)
    (key : List Nat) : ∀ (fuel : Nat) (data : List Nat) (c : Nat),
    data.length ≤ fuel →
    (hapEncryptChunks cipher fuel key c data).1.length = (data.length + 1023) / 1024 ∧
    (hapEncryptChunks cipher fuel key c data).2 = c + (data.length + 1023) / 1024 ∧
    (∀ f ∈ (hapEncryptChunks cipher fuel key c data).1,
        f.chunk.length ≤ 1024 ∧ f.nonce.length = 12) ∧
    (∀ i f, (hapEncryptChunks cipher fuel key c data).1.get? i = some f →
        f.nonce = [0, 0, 0, 0] ++ leBytes 8 (c + i)) := by
  intro fuel
  induction fuel with
  | zero =>
    intro data c h
    have hnil : data = [] := List.eq_nil_of_length_eq_zero (by omega)
    subst hnil
    refine ⟨rfl, rfl, ?_, ?_⟩
    · intro f hf; cases hf
    · intro i f hf; simp [hapEncryptChunks] at hf
  | succ fuel ih =>
    intro data c h
    match data with
    | [] =>
      refine ⟨rfl, rfl, ?_, ?_⟩
      · intro f hf; cases hf
      · intro i f hf; simp [hapEncryptChunks] at hf
    | b :: d =>
      have hlen : (b :: d).length = d.length + 1 := rfl
      by_cases hsz : (b :: d).length ≤ 1024
      · have hmin : min 1024 (b :: d).length = (b :: d).length := by omega
        have hdropnil : (b :: d).drop ((b :: d).length) = [] := by
          rw [List.drop_length]
        have hrec : hapEncryptChunks cipher fuel key (c + 1) [] = ([], c + 1) := by
          cases fuel <;> rfl
        simp only [hapEncryptChunks, hmin, hdropnil, hrec]
        refine ⟨?_, ?_, ?_, ?_⟩
        · simp only [List.length_cons, List.length_nil, hlen]
          omega
        · simp only [hlen]
          omega
        · intro f hf
          rcases List.mem_cons.mp hf with hf | hf
          · subst hf
            refine ⟨?_, ?_⟩
            · simp only [List.length_take]
              omega
            · simp [generateNonce, leBytes_length]
          · cases hf
        · intro i f hf
          match i with
          | 0 =>
            rw [List.get?_cons_zero, Option.some.injEq] at hf
            subst hf
            simp [generateNonce]
          | i + 1 =>
            rw [List.get?_cons_succ, List.get?_nil] at hf
            cases hf
      · have hmin : min 1024 (b :: d).length = 1024 := by omega
        have hdrop : ((b :: d).drop 1024).length = (b :: d).length - 1024 :=
          List.length_drop _ _
        obtain ⟨ihl, ihc, ihm, ihg⟩ :=
          ih ((b :: d).drop 1024) (c + 1) (by omega)
        simp only [hapEncryptChunks, hmin]
        refine ⟨?_, ?_, ?_, ?_⟩
        · simp only [List.length_cons, ihl, hdrop, hlen]
          omega
        · simp only [ihc, hdrop, hlen]
          omega
        · intro f hf
          rcases List.mem_cons.mp hf with hf | hf
          · subst hf
            refine ⟨?_, ?_⟩
            · simp only [List.length_take]
              omega
            · simp [generateNonce, leBytes_length]
          · exact ihm f hf
        · intro i f hf
          match i with
          | 0 =>
            rw [List.get?_cons_zero, Option.some.injEq] at hf
            subst hf
            simp [generateNonce]
          | i + 1 =>
            rw [List.get?_cons_succ] at hf
            rw [ihg i f hf]
            have hadd : c + 1 + i = c + (i + 1) := by omega
            rw [hadd]

/-- **C5** — a fresh `HAPSession` starts with both directional counters at 0;
encrypting an N-byte plaintext performs exactly `⌈N/1024⌉` AEAD invocations,
emitting that many frames of at most 1024 plaintext bytes and advancing only
the outbound counter by that amount, and the i-th invocation uses the 12-byte
nonce whose low 4 bytes are zero and whose high 8 bytes are the counter value
`c + i` little-endian. -/
theorem hapSession_counters_and_nonces :
    (∀ k1 k2 : List Nat,
        (HAPSession.create k1 k2).outCounter = 0 ∧
        (HAPSession.create k1 k2).inCounter = 0) ∧
    (∀ (cipher : List Nat → List Nat → List Nat → List Nat → List Nat × List Nat)
        (s : HAPSession) (data : List Nat),
        (HAPSession.encrypt cipher s data).2.outCounter =
            s.outCounter + (data.length + 1023) / 1024 ∧
        (HAPSession.encrypt cipher s data).2.inCounter = s.inCounter) ∧
    (∀ (cipher : List Nat → List Nat → List Nat → List Nat → List Nat × List Nat)
        (key : List Nat) (c : Nat) (data : List Nat),
        (hapEncryptChunks cipher data.length key c data).1.length =
            (data.length + 1023) / 1024 ∧
        (∀ f ∈ (hapEncryptChunks cipher data.length key c data).1,
            f.chunk.length ≤ 1024 ∧ f.nonce.length = 12) ∧
        (∀ i f, (hapEncryptChunks cipher data.length key c data).1.get? i = some f →
            f.nonce = [0, 0, 0, 0] ++ leBytes 8 (c + i))) := by
  refine ⟨fun k1 k2 => ⟨rfl, rfl⟩, ?_, ?_⟩
  · intro cipher s data
    obtain ⟨_, hc, _, _⟩ :=
      hapEncryptChunks_spec cipher s.outKey data.length data s.outCounter (Nat.le_refl _)
    exact ⟨by simp only [HAPSession.encrypt, hc], rfl⟩
  · intro cipher key c data
    obtain ⟨hl, _, hm, hg⟩ :=
      hapEncryptChunks_spec cipher key data.length data c (Nat.le_refl _)
    exact ⟨hl, hm, hg⟩

/-- Witness for `hapSession_counters_and_nonces` with a dummy AEAD, a 5-byte
plaintext and a 2050-byte plaintext (3 frames). -/
theorem hapSession_counters_and_nonces_witness :
    (HAPSession.create [1] [2]).outCounter = 0 ∧
    ((HAPSession.encrypt (fun _ _ chunk _ => (chunk, List.replicate 16 0))
        (HAPSession.create [1] [2]) (List.replicate 2050 7)).2.outCounter =
      (HAPSession.create [1] [2]).outCounter +
        ((List.replicate 2050 7).length + 1023) / 1024) ∧
    ((hapEncryptChunks (fun _ _ chunk _ => (chunk, List.replicate 16 0))
        (List.replicate 5 9).length [1] 4 (List.replicate 5 9)).1.headI).nonce =
      [0, 0, 0, 0] ++ leBytes 8 (4 + 0) :=
  ⟨(hapSession_counters_and_nonces.1 [1] [2]).1,
   (hapSession_counters_and_nonces.2.1 (fun _ _ chunk _ => (chunk, List.replicate 16 0))
      (HAPSession.create [1] [2]) (List.replicate 2050 7)).1,
   (hapSession_counters_and_nonces.2.2 (fun _ _ chunk _ => (chunk, List.replicate 16 0))
      [1] 4 (List.replicate 5 9)).2.2 0
      ((hapEncryptChunks (fun _ _ chunk _ => (chunk, List.replicate 16 0))
        (List.replicate 5 9).length [1] 4 (List.replicate 5 9)).1.headI) (by decide)⟩

/-! ## DataStream lemmas -/

/-- Bytes 20..28 of a built frame are the big-endian sequence number. -/
theorem seqBytes_of_frame (bplist : List Nat → List Nat) (s : Nat) (p : List Nat) :
    ((buildDataStreamFrame bplist s p).drop 20).take 8 = beBytes 8 s := by
  have hX : (beBytes 4 (32 + (bplist (encodeVarint p.length ++ p)).length) ++
      ([115, 121, 110, 99] ++ (List.replicate 8 0 ++ [99, 111, 109, 109]))).length = 20 := by
    simp [beBytes_length]
  have h1 : buildDataStreamFrame bplist s p =
      (beBytes 4 (32 + (bplist (encodeVarint p.length ++ p)).length) ++
        ([115, 121, 110, 99] ++ (List.replicate 8 0 ++ [99, 111, 109, 109]))) ++
      (beBytes 8 s ++ (List.replicate 4 0 ++ bplist (encodeVarint p.length ++ p))) := by
    simp [buildDataStreamFrame, List.append_assoc]
  rw [h1, List.drop_left' hX, List.take_left' (beBytes_length 8 s)]

/-- **C6** — the module-level `globalSeqno` is drawn once (at module load, a
fortiori once per connection) as `2^32` plus a floored draw below `2^32 - 1`,
so it lies in `[2^32, 2·2^32 − 1]`; every frame built by
`buildDataStreamFrame` carries exactly these 8 big-endian bytes at offsets
20..27, and two builds on the same connection carry identical sequence bytes
(the value is never incremented). -/
theorem dataStream_seqno_constant :
    ∀ k : Nat, k ≤ 0xFFFFFFFE →
      2 ^ 32 ≤ globalSeqno k ∧ globalSeqno k ≤ 2 * 2 ^ 32 - 1 ∧
      ∀ (bplist : List Nat → List Nat) (p1 p2 : List Nat),
        ((buildDataStreamFrame bplist (globalSeqno k) p1).drop 20).take 8 =
          beBytes 8 (globalSeqno k) ∧
        ((buildDataStreamFrame bplist (globalSeqno k) p1).drop 20).take 8 =
          ((buildDataStreamFrame bplist (globalSeqno k) p2).drop 20).take 8 := by
  intro k hk
  refine ⟨by simp [globalSeqno], ?_, ?_⟩
  · simp only [globalSeqno]
    omega
  · intro bplist p1 p2
    refine ⟨seqBytes_of_frame bplist _ p1, ?_⟩
    rw [seqBytes_of_frame, seqBytes_of_frame]

/-- Witness for `dataStream_seqno_constant` at `k = 5`, the identity plist
encoder and two different payloads. -/
theorem dataStream_seqno_constant_witness :
    2 ^ 32 ≤ globalSeqno 5 ∧ globalSeqno 5 ≤ 2 * 2 ^ 32 - 1 ∧
    (((buildDataStreamFrame (fun x => x) (globalSeqno 5) []).drop 20).take 8 =
        beBytes 8 (globalSeqno 5) ∧
      ((buildDataStreamFrame (fun x => x) (globalSeqno 5) []).drop 20).take 8 =
        ((buildDataStreamFrame (fun x => x) (globalSeqno 5) [1, 2, 3]).drop 20).take 8) :=
  ⟨(dataStream_seqno_constant 5 (by decide)).1,
   (dataStream_seqno_constant 5 (by decide)).2.1,
   (dataStream_seqno_constant 5 (by decide)).2.2 (fun x => x) [] [1, 2, 3]⟩

/-- **C10** (amended) — `parseDataStreamFrame` returns `none` exactly when
fewer than 32 bytes follow `offset` or fewer bytes than the declared total
size; a parsed frame is classified `rply` exactly when the four message-type
bytes, after Node's `'ascii'` decoding clears each byte's high bit, spell
`"rply"`; every other value classifies as `sync`. -/
theorem parseDataStreamFrame_null_and_classification :
    ∀ (plistParse : List Nat → Option (List Nat)) (buf : List Nat) (offset : Nat),
      (parseDataStreamFrame plistParse buf offset = none ↔
        buf.length - offset < 32 ∨
          buf.length - offset < beVal ((buf.drop offset).take 4)) ∧
      (∀ r, parseDataStreamFrame plistParse buf offset = some r →
        (r.messageType = DSMessageType.rply ↔
          ((buf.drop (offset + 4)).take 4).map (fun b => b &&& 0x7F) =
            [114, 112, 108, 121])) := by
  intro pp buf offset
  by_cases h1 : buf.length - offset < 32
  · constructor
    · simp [parseDataStreamFrame, h1]
    · intro r hr
      simp [parseDataStreamFrame, h1] at hr
  · by_cases h2 : buf.length - offset < beVal ((buf.drop offset).take 4)
    · constructor
      · simp [parseDataStreamFrame, h1, h2]
      · intro r hr
        simp [parseDataStreamFrame, h1, h2] at hr
    · have hsome : ∀ r, parseDataStreamFrame pp buf offset = some r →
          r.messageType = dsClassify ((buf.drop (offset + 4)).take 4) := by
        intro r hr
        by_cases h3 : beVal ((buf.drop offset).take 4) ≤ 32
        · simp only [parseDataStreamFrame, if_neg h1, if_neg h2, if_pos h3,
            Option.some.injEq] at hr
          rw [← hr]
        · cases hp : pp ((buf.drop (offset + 32)).take (beVal ((buf.drop offset).take 4) - 32)) with
          | none =>
            simp only [parseDataStreamFrame, if_neg h1, if_neg h2, if_neg h3, hp,
              Option.some.injEq] at hr
            rw [← hr]
          | some data =>
            simp only [parseDataStreamFrame, if_neg h1, if_neg h2, if_neg h3, hp,
              Option.some.injEq] at hr
            rw [← hr]
      have hnn : parseDataStreamFrame pp buf offset ≠ none := by
        by_cases h3 : beVal ((buf.drop offset).take 4) ≤ 32
        · simp [parseDataStreamFrame, h1, h2, h3]
        · cases hp : pp ((buf.drop (offset + 32)).take (beVal ((buf.drop offset).take 4) - 32)) <;>
            simp [parseDataStreamFrame, h1, h2, h3, hp]
      constructor
      · constructor
        · intro hn
          exact absurd hn hnn
        · intro hor
          exfalso
          omega
      · intro r hr
        rw [hsome r hr]
        unfold dsClassify
        by_cases hm : ((buf.drop (offset + 4)).take 4).map (fun b => b &&& 0x7F) =
            [114, 112, 108, 121]
        · simp [hm]
        · simp [hm]

/-- Witness for `parseDataStreamFrame_null_and_classification`: a 3-byte
buffer (parses to `none`) and a genuine 32-byte `rply` frame. -/
theorem parseDataStreamFrame_null_and_classification_witness :
    (parseDataStreamFrame (fun _ => none) [0, 0, 0] 0 = none ↔
      ([0, 0, 0] : List Nat).length - 0 < 32 ∨
        ([0, 0, 0] : List Nat).length - 0 <
          beVal ((([0, 0, 0] : List Nat).drop 0).take 4)) ∧
    (({ messageType := DSMessageType.rply, protobufData := none, seqno := 7,
        totalSize := 32 } : ParsedDataStreamFrame).messageType = DSMessageType.rply ↔
      ((([0, 0, 0, 32, 114, 112, 108, 121] ++ List.replicate 12 0 ++
          [0, 0, 0, 0, 0, 0, 0, 7] ++ [0, 0, 0, 0]).drop (0 + 4)).take 4).map
        (fun b => b &&& 0x7F) = [114, 112, 108, 121]) :=
  ⟨(parseDataStreamFrame_null_and_classification (fun _ => none) [0, 0, 0] 0).1,
   (parseDataStreamFrame_null_and_classification (fun _ => none)
      ([0, 0, 0, 32, 114, 112, 108, 121] ++ List.replicate 12 0 ++
        [0, 0, 0, 0, 0, 0, 0, 7] ++ [0, 0, 0, 0]) 0).2
     { messageType := DSMessageType.rply, protobufData := none, seqno := 7,
       totalSize := 32 } (by decide)⟩

/-- **C10** counterexample to the claim as stated: a frame whose
message-type bytes are `F2 70 6C 79` (not the ASCII `"rply"` bytes) is still
classified `rply`, because `toString('ascii')` masks each byte to 7 bits. -/
theorem parseDataStream_ascii_mask_counterexample :
    (parseDataStreamFrame (fun _ => none)
        ([0, 0, 0, 32, 242, 112, 108, 121] ++ List.replicate 24 0) 0).map
      (fun r => r.messageType) = some DSMessageType.rply ∧
    (([0, 0, 0, 32, 242, 112, 108, 121] ++ List.replicate 24 0).drop 4).take 4 ≠
      [114, 112, 108, 121] := by
  constructor <;> decide


/-! ## OPACK lemmas -/

/-- Every encoder output is nonempty and never starts with the 0x03
terminator byte. -/
theorem encodeValue_head : ∀ v : OVal, ∃ t d, encodeValue v = t :: d ∧ t ≠ 3 := by
  intro v
  cases v with
  | onull => exact ⟨0x04, [], rfl, by omega⟩
  | obool b =>
    cases b
    · exact ⟨0x02, [], rfl, by omega⟩
    · exact ⟨0x01, [], rfl, by omega⟩
  | oint n =>
    show ∃ t d, encodeInteger n = t :: d ∧ t ≠ 3
    simp only [encodeInteger]
    split_ifs
    · exact ⟨8 + n.toNat, [], rfl, by omega⟩
    · exact ⟨0x30, [n.toNat], rfl, by omega⟩
    · exact ⟨0x31, leBytes 2 n.toNat, rfl, by omega⟩
    · exact ⟨0x32, leBytes 4 n.toNat, rfl, by omega⟩
    · exact ⟨0x33, leBytes 8 (n.emod (2 ^ 64)).toNat, rfl, by omega⟩
  | obig n => exact ⟨0x33, leBytes 8 (n.emod (2 ^ 64)).toNat, rfl, by omega⟩
  | ofloat bs => exact ⟨0x36, bs, rfl, by omega⟩
  | ostr bs =>
    show ∃ t d, encodeString bs = t :: d ∧ t ≠ 3
    simp only [encodeString]
    split_ifs
    · exact ⟨0x40 + bs.length, bs, rfl, by omega⟩
    · exact ⟨0x61, bs.length :: bs, rfl, by omega⟩
    · exact ⟨0x62, leBytes 2 bs.length ++ bs, rfl, by omega⟩
    · exact ⟨0x63, leBytes 3 bs.length ++ bs, rfl, by omega⟩
    · exact ⟨0x64, leBytes 4 bs.length ++ bs, rfl, by omega⟩
  | odata bs =>
    show ∃ t d, encodeData bs = t :: d ∧ t ≠ 3
    simp only [encodeData]
    split_ifs
    · exact ⟨0x70 + bs.length, bs, rfl, by omega⟩
    · exact ⟨0x91, bs.length :: bs, rfl, by omega⟩
    · exact ⟨0x92, leBytes 2 bs.length ++ bs, rfl, by omega⟩
    · exact ⟨0x93, leBytes 4 bs.length ++ bs, rfl, by omega⟩
  | oarr xs =>
    exact ⟨0xd0 + min xs.length 0x0f,
      encodeList xs ++ if 0x0f ≤ xs.length then [0x03] else [], rfl, by omega⟩
  | odict ps =>
    exact ⟨0xe0 + min ps.length 0x0f,
      encodePairs ps ++ if 0x0f ≤ ps.length then [0x03] else [], rfl, by omega⟩

theorem encodeValue_length_pos (v : OVal) : 1 ≤ (encodeValue v).length := by
  obtain ⟨t, d, h, _⟩ := encodeValue_head v
  rw [h]
  simp only [List.length_cons]
  omega

theorem rtOkList_mem : ∀ (xs : List OVal), rtOkList xs = true → ∀ x ∈ xs, rtOk x = true := by
  intro xs
  induction xs with
  | nil => intro _ x hx; exact absurd hx (List.not_mem_nil x)
  | cons y ys ih =>
    intro h x hx
    simp only [rtOkList, Bool.and_eq_true] at h
    rcases List.mem_cons.mp hx with h1 | h2
    · rw [h1]; exact h.1
    · exact ih h.2 x h2

theorem rtOkPairs_mem : ∀ (ps : List (OVal × OVal)), rtOkPairs ps = true →
    ∀ p ∈ ps, rtOk p.1 = true ∧ rtOk p.2 = true := by
  intro ps
  induction ps with
  | nil => intro _ p hp; exact absurd hp (List.not_mem_nil p)
  | cons q qs ih =>
    intro h p hp
    simp only [rtOkPairs, Bool.and_eq_true] at h
    rcases List.mem_cons.mp hp with h1 | h2
    · rw [h1]; exact ⟨h.1, h.2.1⟩
    · exact ih h.2.2 p h2

/-- Decoder dispatch on an inline small-integer tag. -/
theorem decodeValueF_intInline (g t : Nat) (h1 : 0x08 ≤ t) (h2 : t ≤ 0x2f) (buf : List Nat) :
    decodeValueF (g + 1) (t :: buf) = some (OVal.oint ((t - 8 : Nat) : Int), buf) := by
  have n1 : ¬(t = 0x04) := by omega
  have n2 : ¬(t = 0x01) := by omega
  have n3 : ¬(t = 0x02) := by omega
  have n4 : ¬(t = 0x05) := by omega
  simp only [decodeValueF, if_neg n1, if_neg n2, if_neg n3, if_neg n4,
    if_pos (⟨h1, h2⟩ : 0x08 ≤ t ∧ t ≤ 0x2f)]

theorem decodeValueF_tag30 (g : Nat) (buf : List Nat) :
    decodeValueF (g + 1) (0x30 :: buf) =
      (match buf with
       | b :: r => some (OVal.oint (b : Int), r)
       | [] => none) := rfl

theorem decodeValueF_tag31 (g : Nat) (buf : List Nat) :
    decodeValueF (g + 1) (0x31 :: buf) =
      (match readLE 2 buf with
       | some (n, r) => some (OVal.oint (n : Int), r)
       | none => none) := rfl

theorem decodeValueF_tag32 (g : Nat) (buf : List Nat) :
    decodeValueF (g + 1) (0x32 :: buf) =
      (match readLE 4 buf with
       | some (n, r) => some (OVal.oint (n : Int), r)
       | none => none) := rfl

theorem decodeValueF_tag33 (g : Nat) (buf : List Nat) :
    decodeValueF (g + 1) (0x33 :: buf) =
      (match readLE 8 buf with
       | some (n, r) =>
         some (if n ≤ 2 ^ 53 - 1 then (OVal.oint (n : Int), r) else (OVal.obig (n : Int), r))
       | none => none) := rfl

theorem decodeValueF_tag36 (g : Nat) (buf : List Nat) :
    decodeValueF (g + 1) (0x36 :: buf) =
      (if buf.length < 8 then none else some (OVal.ofloat (buf.take 8), buf.drop 8)) := rfl

/-- Decoder dispatch on an inline string tag. -/
theorem decodeValueF_strInline (g t : Nat) (h1 : 0x40 ≤ t) (h2 : t ≤ 0x60) (buf : List Nat) :
    decodeValueF (g + 1) (t :: buf) =
      some (OVal.ostr (buf.take (t - 0x40)), buf.drop (t - 0x40)) := by
  have n1 : ¬(t = 0x04) := by omega
  have n2 : ¬(t = 0x01) := by omega
  have n3 : ¬(t = 0x02) := by omega
  have n4 : ¬(t = 0x05) := by omega
  have n5 : ¬(0x08 ≤ t ∧ t ≤ 0x2f) := by omega
  have n6 : ¬(t = 0x30) := by omega
  have n7 : ¬(t = 0x31) := by omega
  have n8 : ¬(t = 0x32) := by omega
  have n9 : ¬(t = 0x33) := by omega
  have n10 : ¬(t = 0x35) := by omega
  have n11 : ¬(t = 0x36) := by omega
  simp only [decodeValueF, if_neg n1, if_neg n2, if_neg n3, if_neg n4, if_neg n5,
    if_neg n6, if_neg n7, if_neg n8, if_neg n9, if_neg n10, if_neg n11,
    if_pos (⟨h1, h2⟩ : 0x40 ≤ t ∧ t ≤ 0x60)]

theorem decodeValueF_tag61 (g : Nat) (buf : List Nat) :
    decodeValueF (g + 1) (0x61 :: buf) =
      (match buf with
       | len :: r => some (OVal.ostr (r.take len), r.drop len)
       | [] => none) := rfl

theorem decodeValueF_tag62 (g : Nat) (buf : List Nat) :
    decodeValueF (g + 1) (0x62 :: buf) =
      (match readLE 2 buf with
       | some (len, r) => some (OVal.ostr (r.take len), r.drop len)
       | none => none) := rfl

theorem decodeValueF_tag63 (g : Nat) (buf : List Nat) :
    decodeValueF (g + 1) (0x63 :: buf) =
      (match readLE 3 buf with
       | some (len, r) => some (OVal.ostr (r.take len), r.drop len)
       | none => none) := rfl

theorem decodeValueF_tag64 (g : Nat) (buf : List Nat) :
    decodeValueF (g + 1) (0x64 :: buf) =
      (match readLE 4 buf with
       | some (len, r) => some (OVal.ostr (r.take len), r.drop len)
       | none => none) := rfl

/-- Decoder dispatch on an inline data tag. -/
theorem decodeValueF_dataInline (g t : Nat) (h1 : 0x70 ≤ t) (h2 : t ≤ 0x90) (buf : List Nat) :
    decodeValueF (g + 1) (t :: buf) =
      some (OVal.odata (buf.take (t - 0x70)), buf.drop (t - 0x70)) := by
  have n1 : ¬(t = 0x04) := by omega
  have n2 : ¬(t = 0x01) := by omega
  have n3 : ¬(t = 0x02) := by omega
  have n4 : ¬(t = 0x05) := by omega
  have n5 : ¬(0x08 ≤ t ∧ t ≤ 0x2f) := by omega
  have n6 : ¬(t = 0x30) := by omega
  have n7 : ¬(t = 0x31) := by omega
  have n8 : ¬(t = 0x32) := by omega
  have n9 : ¬(t = 0x33) := by omega
  have n10 : ¬(t = 0x35) := by omega
  have n11 : ¬(t = 0x36) := by omega
  have n12 : ¬(0x40 ≤ t ∧ t ≤ 0x60) := by omega
  have n13 : ¬(t = 0x61) := by omega
  have n14 : ¬(t = 0x62) := by omega
  have n15 : ¬(t = 0x63) := by omega
  have n16 : ¬(t = 0x64) := by omega
  simp only [decodeValueF, if_neg n1, if_neg n2, if_neg n3, if_neg n4, if_neg n5,
    if_neg n6, if_neg n7, if_neg n8, if_neg n9, if_neg n10, if_neg n11, if_neg n12,
    if_neg n13, if_neg n14, if_neg n15, if_neg n16,
    if_pos (⟨h1, h2⟩ : 0x70 ≤ t ∧ t ≤ 0x90)]

theorem decodeValueF_tag91 (g : Nat) (buf : List Nat) :
    decodeValueF (g + 1) (0x91 :: buf) =
      (match buf with
       | len :: r => some (OVal.odata (r.take len), r.drop len)
       | [] => none) := rfl

theorem decodeValueF_tag92 (g : Nat) (buf : List Nat) :
    decodeValueF (g + 1) (0x92 :: buf) =
      (match readLE 2 buf with
       | some (len, r) => some (OVal.odata (r.take len), r.drop len)
       | none => none) := rfl

theorem decodeValueF_tag93 (g : Nat) (buf : List Nat) :
    decodeValueF (g + 1) (0x93 :: buf) =
      (match readLE 4 buf with
       | some (len, r) => some (OVal.odata (r.take len), r.drop len)
       | none => none) := rfl

/-- Decoder dispatch on a counted-array tag. -/
theorem decodeValueF_arrN (g t : Nat) (h1 : 0xd0 ≤ t) (h2 : t ≤ 0xde) (buf : List Nat) :
    decodeValueF (g + 1) (t :: buf) =
      (match decodeListNF g (t - 0xd0) buf with
       | some (vs, r) => some (OVal.oarr vs, r)
       | none => none) := by
  have n1 : ¬(t = 0x04) := by omega
  have n2 : ¬(t = 0x01) := by omega
  have n3 : ¬(t = 0x02) := by omega
  have n4 : ¬(t = 0x05) := by omega
  have n5 : ¬(0x08 ≤ t ∧ t ≤ 0x2f) := by omega
  have n6 : ¬(t = 0x30) := by omega
  have n7 : ¬(t = 0x31) := by omega
  have n8 : ¬(t = 0x32) := by omega
  have n9 : ¬(t = 0x33) := by omega
  have n10 : ¬(t = 0x35) := by omega
  have n11 : ¬(t = 0x36) := by omega
  have n12 : ¬(0x40 ≤ t ∧ t ≤ 0x60) := by omega
  have n13 : ¬(t = 0x61) := by omega
  have n14 : ¬(t = 0x62) := by omega
  have n15 : ¬(t = 0x63) := by omega
  have n16 : ¬(t = 0x64) := by omega
  have n17 : ¬(0x70 ≤ t ∧ t ≤ 0x90) := by omega
  have n18 : ¬(t = 0x91) := by omega
  have n19 : ¬(t = 0x92) := by omega
  have n20 : ¬(t = 0x93) := by omega
  simp only [decodeValueF, if_neg n1, if_neg n2, if_neg n3, if_neg n4, if_neg n5,
    if_neg n6, if_neg n7, if_neg n8, if_neg n9, if_neg n10, if_neg n11, if_neg n12,
    if_neg n13, if_neg n14, if_neg n15, if_neg n16, if_neg n17, if_neg n18,
    if_neg n19, if_neg n20, if_pos (⟨h1, h2⟩ : 0xd0 ≤ t ∧ t ≤ 0xde)]

theorem decodeValueF_tagdf (g : Nat) (buf : List Nat) :
    decodeValueF (g + 1) (0xdf :: buf) =
      (match decodeListTermF g buf with
       | some (vs, r) => some (OVal.oarr vs, r)
       | none => none) := rfl

/-- Decoder dispatch on a counted-dictionary tag. -/
theorem decodeValueF_dictN (g t : Nat) (h1 : 0xe0 ≤ t) (h2 : t ≤ 0xee) (buf : List Nat) :
    decodeValueF (g + 1) (t :: buf) =
      (match decodePairsNF g (t - 0xe0) buf with
       | some (ps, r) => some (OVal.odict ps, r)
       | none => none) := by
  have n1 : ¬(t = 0x04) := by omega
  have n2 : ¬(t = 0x01) := by omega
  have n3 : ¬(t = 0x02) := by omega
  have n4 : ¬(t = 0x05) := by omega
  have n5 : ¬(0x08 ≤ t ∧ t ≤ 0x2f) := by omega
  have n6 : ¬(t = 0x30) := by omega
  have n7 : ¬(t = 0x31) := by omega
  have n8 : ¬(t = 0x32) := by omega
  have n9 : ¬(t = 0x33) := by omega
  have n10 : ¬(t = 0x35) := by omega
  have n11 : ¬(t = 0x36) := by omega
  have n12 : ¬(0x40 ≤ t ∧ t ≤ 0x60) := by omega
  have n13 : ¬(t = 0x61) := by omega
  have n14 : ¬(t = 0x62) := by omega
  have n15 : ¬(t = 0x63) := by omega
  have n16 : ¬(t = 0x64) := by omega
  have n17 : ¬(0x70 ≤ t ∧ t ≤ 0x90) := by omega
  have n18 : ¬(t = 0x91) := by omega
  have n19 : ¬(t = 0x92) := by omega
  have n20 : ¬(t = 0x93) := by omega
  have n21 : ¬(0xd0 ≤ t ∧ t ≤ 0xde) := by omega
  have n22 : ¬(t = 0xdf) := by omega
  simp only [decodeValueF, if_neg n1, if_neg n2, if_neg n3, if_neg n4, if_neg n5,
    if_neg n6, if_neg n7, if_neg n8, if_neg n9, if_neg n10, if_neg n11, if_neg n12,
    if_neg n13, if_neg n14, if_neg n15, if_neg n16, if_neg n17, if_neg n18,
    if_neg n19, if_neg n20, if_neg n21, if_neg n22,
    if_pos (⟨h1, h2⟩ : 0xe0 ≤ t ∧ t ≤ 0xee)]

theorem decodeValueF_tagef (g : Nat) (buf : List Nat) :
    decodeValueF (g + 1) (0xef :: buf) =
      (match decodePairsTermF g buf with
       | some (ps2, r) => some (OVal.odict ps2, r)
       | none => none) := rfl


/-- Counted-list decoding inverts `encodeList` given enough fuel. -/
theorem rt_listN : ∀ (xs : List OVal), (∀ x ∈ xs, RTp x) →
    ∀ (f : Nat) (rest : List Nat), 2 * (encodeList xs).length + 1 ≤ f →
      decodeListNF f xs.length (encodeList xs ++ rest) = some (xs, rest) := by
  intro xs
  induction xs with
  | nil =>
    intro _ f rest hf
    obtain ⟨g, rfl⟩ : ∃ g, f = g + 1 := ⟨f - 1, by omega⟩
    rfl
  | cons x xs ih =>
    intro IH f rest hf
    obtain ⟨g, rfl⟩ : ∃ g, f = g + 1 := ⟨f - 1, by omega⟩
    have hx : RTp x := IH x (List.mem_cons_self x xs)
    have hepos : 1 ≤ (encodeValue x).length := encodeValue_length_pos x
    have hlen : (encodeList (x :: xs)).length =
        (encodeValue x).length + (encodeList xs).length := by
      simp [encodeList]
    have h1 : decodeValueF g (encodeValue x ++ (encodeList xs ++ rest)) =
        some (x, encodeList xs ++ rest) :=
      hx g (encodeList xs ++ rest) (by omega)
    have h2 : decodeListNF g xs.length (encodeList xs ++ rest) = some (xs, rest) :=
      ih (fun y hy => IH y (List.mem_cons_of_mem x hy)) g rest (by omega)
    have hbuf : encodeList (x :: xs) ++ rest = encodeValue x ++ (encodeList xs ++ rest) := by
      simp [encodeList]
    rw [show (x :: xs).length = xs.length + 1 from rfl, hbuf]
    simp only [decodeListNF, h1, h2]

/-- Terminated-list decoding inverts `encodeList` followed by the 0x03
terminator, given enough fuel. -/
theorem rt_listTerm : ∀ (xs : List OVal), (∀ x ∈ xs, RTp x) →
    ∀ (f : Nat) (rest : List Nat), 2 * (encodeList xs).length + 2 ≤ f →
      decodeListTermF f (encodeList xs ++ (0x03 :: rest)) = some (xs, rest) := by
  intro xs
  induction xs with
  | nil =>
    intro _ f rest hf
    obtain ⟨g, rfl⟩ : ∃ g, f = g + 1 := ⟨f - 1, by omega⟩
    rfl
  | cons x xs ih =>
    intro IH f rest hf
    obtain ⟨g, rfl⟩ : ∃ g, f = g + 1 := ⟨f - 1, by omega⟩
    obtain ⟨t, d, henc, ht3⟩ := encodeValue_head x
    have hx : RTp x := IH x (List.mem_cons_self x xs)
    have hepos : 1 ≤ (encodeValue x).length := encodeValue_length_pos x
    have hlen : (encodeList (x :: xs)).length =
        (encodeValue x).length + (encodeList xs).length := by
      simp [encodeList]
    have h1 : decodeValueF g (t :: (d ++ (encodeList xs ++ (0x03 :: rest)))) =
        some (x, encodeList xs ++ (0x03 :: rest)) := by
      rw [show t :: (d ++ (encodeList xs ++ (0x03 :: rest))) =
            encodeValue x ++ (encodeList xs ++ (0x03 :: rest)) by rw [henc]; rfl]
      exact hx g _ (by omega)
    have h2 : decodeListTermF g (encodeList xs ++ (0x03 :: rest)) = some (xs, rest) :=
      ih (fun y hy => IH y (List.mem_cons_of_mem x hy)) g rest (by omega)
    have hbuf : encodeList (x :: xs) ++ (0x03 :: rest) =
        t :: (d ++ (encodeList xs ++ (0x03 :: rest))) := by
      simp [encodeList, henc]
    rw [hbuf]
    simp only [decodeListTermF, if_neg ht3, h1, h2]

/-- Counted-dictionary decoding inverts `encodePairs` given enough fuel. -/
theorem rt_pairsN : ∀ (ps : List (OVal × OVal)), (∀ p ∈ ps, RTp p.1 ∧ RTp p.2) →
    ∀ (f : Nat) (rest : List Nat), 2 * (encodePairs ps).length + 1 ≤ f →
      decodePairsNF f ps.length (encodePairs ps ++ rest) = some (ps, rest) := by
  intro ps
  induction ps with
  | nil =>
    intro _ f rest hf
    obtain ⟨g, rfl⟩ : ∃ g, f = g + 1 := ⟨f - 1, by omega⟩
    rfl
  | cons p ps ih =>
    intro IH f rest hf
    obtain ⟨g, rfl⟩ : ∃ g, f = g + 1 := ⟨f - 1, by omega⟩
    obtain ⟨k, v⟩ := p
    have hk : RTp k := (IH (k, v) (List.mem_cons_self (k, v) ps)).1
    have hv : RTp v := (IH (k, v) (List.mem_cons_self (k, v) ps)).2
    have hkpos : 1 ≤ (encodeValue k).length := encodeValue_length_pos k
    have hvpos : 1 ≤ (encodeValue v).length := encodeValue_length_pos v
    have hlen : (encodePairs ((k, v) :: ps)).length =
        (encodeValue k).length + ((encodeValue v).length + (encodePairs ps).length) := by
      simp [encodePairs]
    have h1 : decodeValueF g (encodeValue k ++ (encodeValue v ++ (encodePairs ps ++ rest))) =
        some (k, encodeValue v ++ (encodePairs ps ++ rest)) :=
      hk g _ (by omega)
    have h2 : decodeValueF g (encodeValue v ++ (encodePairs ps ++ rest)) =
        some (v, encodePairs ps ++ rest) :=
      hv g _ (by omega)
    have h3 : decodePairsNF g ps.length (encodePairs ps ++ rest) = some (ps, rest) :=
      ih (fun q hq => IH q (List.mem_cons_of_mem (k, v) hq)) g rest (by omega)
    have hbuf : encodePairs ((k, v) :: ps) ++ rest =
        encodeValue k ++ (encodeValue v ++ (encodePairs ps ++ rest)) := by
      simp [encodePairs]
    rw [show ((k, v) :: ps).length = ps.length + 1 from rfl, hbuf]
    simp only [decodePairsNF, h1, h2, h3]

/-- Terminated-dictionary decoding inverts `encodePairs` followed by the
0x03 terminator, given enough fuel. -/
theorem rt_pairsTerm : ∀ (ps : List (OVal × OVal)), (∀ p ∈ ps, RTp p.1 ∧ RTp p.2) →
    ∀ (f : Nat) (rest : List Nat), 2 * (encodePairs ps).length + 2 ≤ f →
      decodePairsTermF f (encodePairs ps ++ (0x03 :: rest)) = some (ps, rest) := by
  intro ps
  induction ps with
  | nil =>
    intro _ f rest hf
    obtain ⟨g, rfl⟩ : ∃ g, f = g + 1 := ⟨f - 1, by omega⟩
    rfl
  | cons p ps ih =>
    intro IH f rest hf
    obtain ⟨g, rfl⟩ : ∃ g, f = g + 1 := ⟨f - 1, by omega⟩
    obtain ⟨k, v⟩ := p
    obtain ⟨t, d, henc, ht3⟩ := encodeValue_head k
    have hk : RTp k := (IH (k, v) (List.mem_cons_self (k, v) ps)).1
    have hv : RTp v := (IH (k, v) (List.mem_cons_self (k, v) ps)).2
    have hkpos : 1 ≤ (encodeValue k).length := encodeValue_length_pos k
    have hvpos : 1 ≤ (encodeValue v).length := encodeValue_length_pos v
    have hlen : (encodePairs ((k, v) :: ps)).length =
        (encodeValue k).length + ((encodeValue v).length + (encodePairs ps).length) := by
      simp [encodePairs]
    have h1 : decodeValueF g
        (t :: (d ++ (encodeValue v ++ (encodePairs ps ++ (0x03 :: rest))))) =
        some (k, encodeValue v ++ (encodePairs ps ++ (0x03 :: rest))) := by
      rw [show t :: (d ++ (encodeValue v ++ (encodePairs ps ++ (0x03 :: rest)))) =
            encodeValue k ++ (encodeValue v ++ (encodePairs ps ++ (0x03 :: rest))) by
          rw [henc]; rfl]
      exact hk g _ (by omega)
    have h2 : decodeValueF g (encodeValue v ++ (encodePairs ps ++ (0x03 :: rest))) =
        some (v, encodePairs ps ++ (0x03 :: rest)) :=
      hv g _ (by omega)
    have h3 : decodePairsTermF g (encodePairs ps ++ (0x03 :: rest)) = some (ps, rest) :=
      ih (fun q hq => IH q (List.mem_cons_of_mem (k, v) hq)) g rest (by omega)
    have hbuf : encodePairs ((k, v) :: ps) ++ (0x03 :: rest) =
        t :: (d ++ (encodeValue v ++ (encodePairs ps ++ (0x03 :: rest)))) := by
      simp [encodePairs, henc]
    rw [hbuf]
    simp only [decodePairsTermF, if_neg ht3, h1, h2, h3]


/-- Every value in the roundtrip domain decodes back from its encoding
(strong induction on the size of the value). -/
theorem rt_value_aux : ∀ (N : Nat) (v : OVal), sizeOf v ≤ N → rtOk v = true → RTp v := by
  intro N
  induction N using Nat.strong_induction_on with
  | _ N IHN =>
    intro v hN hok
    cases v with
    | onull =>
      intro f rest hf
      obtain ⟨g, rfl⟩ : ∃ g, f = g + 1 :=
        ⟨f - 1, by have h1 := encodeValue_length_pos OVal.onull; omega⟩
      rfl
    | obool b =>
      intro f rest hf
      obtain ⟨g, rfl⟩ : ∃ g, f = g + 1 :=
        ⟨f - 1, by have h1 := encodeValue_length_pos (OVal.obool b); omega⟩
      cases b <;> rfl
    | oint n =>
      have hn : 0 ≤ n ∧ n ≤ 2 ^ 53 - 1 := by
        have h := hok
        simp only [rtOk, Bool.and_eq_true, decide_eq_true_eq] at h
        exact h
      intro f rest hf
      obtain ⟨g, rfl⟩ : ∃ g, f = g + 1 :=
        ⟨f - 1, by have h1 := encodeValue_length_pos (OVal.oint n); omega⟩
      by_cases hA : n ≤ 39
      · have henc : encodeValue (OVal.oint n) = [8 + n.toNat] := by
          show encodeInteger n = [8 + n.toNat]
          simp only [encodeInteger]
          rw [if_pos (⟨hn.1, hA⟩ : 0 ≤ n ∧ n ≤ 39)]
        rw [henc, show [8 + n.toNat] ++ rest = (8 + n.toNat) :: rest from rfl,
          decodeValueF_intInline g (8 + n.toNat) (by omega) (by omega) rest]
        have he : ((8 + n.toNat - 8 : Nat) : Int) = n := by omega
        rw [he]
      · by_cases hB : n ≤ 0xff
        · have hnA : ¬(0 ≤ n ∧ n ≤ 39) := by omega
          have henc : encodeValue (OVal.oint n) = [0x30, n.toNat] := by
            show encodeInteger n = [0x30, n.toNat]
            simp only [encodeInteger]
            rw [if_neg hnA, if_pos (⟨hn.1, hB⟩ : 0 ≤ n ∧ n ≤ 0xff)]
          rw [henc, show [0x30, n.toNat] ++ rest = 0x30 :: (n.toNat :: rest) from rfl,
            decodeValueF_tag30]
          show some (OVal.oint ((n.toNat : Nat) : Int), rest) = some (OVal.oint n, rest)
          rw [Int.toNat_of_nonneg hn.1]
        · by_cases hC : n ≤ 0xffff
          · have hnA : ¬(0 ≤ n ∧ n ≤ 39) := by omega
            have hnB : ¬(0 ≤ n ∧ n ≤ 0xff) := by omega
            have henc : encodeValue (OVal.oint n) = 0x31 :: leBytes 2 n.toNat := by
              show encodeInteger n = 0x31 :: leBytes 2 n.toNat
              simp only [encodeInteger]
              rw [if_neg hnA, if_neg hnB, if_pos (⟨hn.1, hC⟩ : 0 ≤ n ∧ n ≤ 0xffff)]
            have hlt : n.toNat < 2 ^ (8 * 2) := by
              have he : (2 : Nat) ^ (8 * 2) = 65536 := by norm_num
              omega
            rw [henc,
              show (0x31 :: leBytes 2 n.toNat) ++ rest = 0x31 :: (leBytes 2 n.toNat ++ rest)
                from rfl,
              decodeValueF_tag31, readLE_leBytes 2 n.toNat hlt rest]
            show some (OVal.oint ((n.toNat : Nat) : Int), rest) = some (OVal.oint n, rest)
            rw [Int.toNat_of_nonneg hn.1]
          · by_cases hD : n ≤ 0xffffffff
            · have hnA : ¬(0 ≤ n ∧ n ≤ 39) := by omega
              have hnB : ¬(0 ≤ n ∧ n ≤ 0xff) := by omega
              have hnC : ¬(0 ≤ n ∧ n ≤ 0xffff) := by omega
              have henc : encodeValue (OVal.oint n) = 0x32 :: leBytes 4 n.toNat := by
                show encodeInteger n = 0x32 :: leBytes 4 n.toNat
                simp only [encodeInteger]
                rw [if_neg hnA, if_neg hnB, if_neg hnC,
                  if_pos (⟨hn.1, hD⟩ : 0 ≤ n ∧ n ≤ 0xffffffff)]
              have hlt : n.toNat < 2 ^ (8 * 4) := by
                have he : (2 : Nat) ^ (8 * 4) = 4294967296 := by norm_num
                omega
              rw [henc,
                show (0x32 :: leBytes 4 n.toNat) ++ rest = 0x32 :: (leBytes 4 n.toNat ++ rest)
                  from rfl,
                decodeValueF_tag32, readLE_leBytes 4 n.toNat hlt rest]
              show some (OVal.oint ((n.toNat : Nat) : Int), rest) = some (OVal.oint n, rest)
              rw [Int.toNat_of_nonneg hn.1]
            · have hnA : ¬(0 ≤ n ∧ n ≤ 39) := by omega
              have hnB : ¬(0 ≤ n ∧ n ≤ 0xff) := by omega
              have hnC : ¬(0 ≤ n ∧ n ≤ 0xffff) := by omega
              have hnD : ¬(0 ≤ n ∧ n ≤ 0xffffffff) := by omega
              have henc : encodeValue (OVal.oint n) =
                  0x33 :: leBytes 8 (n.emod (2 ^ 64)).toNat := by
                show encodeInteger n = 0x33 :: leBytes 8 (n.emod (2 ^ 64)).toNat
                simp only [encodeInteger]
                rw [if_neg hnA, if_neg hnB, if_neg hnC, if_neg hnD]
              have hmodeq : n.emod (2 ^ 64) = n :=
                Int.emod_eq_of_lt hn.1 (by
                  have h53i : (2 : Int) ^ 53 = 9007199254740992 := by norm_num
                  have h64i : (2 : Int) ^ 64 = 18446744073709551616 := by norm_num
                  omega)
              have hmod : (n.emod (2 ^ 64)).toNat = n.toNat := by rw [hmodeq]
              have hlt : n.toNat < 2 ^ (8 * 8) := by
                have he : (2 : Nat) ^ (8 * 8) = 18446744073709551616 := by norm_num
                omega
              have hle : n.toNat ≤ 2 ^ 53 - 1 := by
                have he : (2 : Nat) ^ 53 = 9007199254740992 := by norm_num
                omega
              rw [henc, hmod,
                show (0x33 :: leBytes 8 n.toNat) ++ rest = 0x33 :: (leBytes 8 n.toNat ++ rest)
                  from rfl,
                decodeValueF_tag33, readLE_leBytes 8 n.toNat hlt rest]
              show some (if n.toNat ≤ 2 ^ 53 - 1 then (OVal.oint ((n.toNat : Nat) : Int), rest)
                  else (OVal.obig ((n.toNat : Nat) : Int), rest)) = some (OVal.oint n, rest)
              rw [if_pos hle, Int.toNat_of_nonneg hn.1]
    | obig n =>
      have hn : 2 ^ 53 ≤ n ∧ n ≤ 2 ^ 63 - 1 := by
        have h := hok
        simp only [rtOk, Bool.and_eq_true, decide_eq_true_eq] at h
        exact h
      intro f rest hf
      obtain ⟨g, rfl⟩ : ∃ g, f = g + 1 :=
        ⟨f - 1, by have h1 := encodeValue_length_pos (OVal.obig n); omega⟩
      have h63i : (2 : Int) ^ 63 = 9223372036854775808 := by norm_num
      have h53i : (2 : Int) ^ 53 = 9007199254740992 := by norm_num
      have h0 : (0 : Int) ≤ n := by omega
      have henc : encodeValue (OVal.obig n) = 0x33 :: leBytes 8 (n.emod (2 ^ 64)).toNat := rfl
      have hmodeq : n.emod (2 ^ 64) = n :=
        Int.emod_eq_of_lt h0 (by
          have h64i : (2 : Int) ^ 64 = 18446744073709551616 := by norm_num
          omega)
      have hmod : (n.emod (2 ^ 64)).toNat = n.toNat := by rw [hmodeq]
      have hlt : n.toNat < 2 ^ (8 * 8) := by
        have he : (2 : Nat) ^ (8 * 8) = 18446744073709551616 := by norm_num
        omega
      have hgt : ¬(n.toNat ≤ 2 ^ 53 - 1) := by
        have he : (2 : Nat) ^ 53 = 9007199254740992 := by norm_num
        omega
      rw [henc, hmod,
        show (0x33 :: leBytes 8 n.toNat) ++ rest = 0x33 :: (leBytes 8 n.toNat ++ rest) from rfl,
        decodeValueF_tag33, readLE_leBytes 8 n.toNat hlt rest]
      show some (if n.toNat ≤ 2 ^ 53 - 1 then (OVal.oint ((n.toNat : Nat) : Int), rest)
          else (OVal.obig ((n.toNat : Nat) : Int), rest)) = some (OVal.obig n, rest)
      rw [if_neg hgt, Int.toNat_of_nonneg h0]
    | ofloat bs =>
      have hlen : bs.length = 8 := by
        have h := hok
        simp only [rtOk, Bool.and_eq_true, beq_iff_eq] at h
        exact h.1
      intro f rest hf
      obtain ⟨g, rfl⟩ : ∃ g, f = g + 1 :=
        ⟨f - 1, by have h1 := encodeValue_length_pos (OVal.ofloat bs); omega⟩
      have henc : encodeValue (OVal.ofloat bs) = 0x36 :: bs := rfl
      have h8 : ¬((bs ++ rest).length < 8) := by
        rw [List.length_append, hlen]; omega
      rw [henc, show (0x36 :: bs) ++ rest = 0x36 :: (bs ++ rest) from rfl,
        decodeValueF_tag36, if_neg h8, List.take_left' hlen, List.drop_left' hlen]
    | ostr bs =>
      have hlen : bs.length < 2 ^ 32 := by
        have h := hok
        simp only [rtOk, Bool.and_eq_true, decide_eq_true_eq] at h
        exact h.1
      intro f rest hf
      obtain ⟨g, rfl⟩ : ∃ g, f = g + 1 :=
        ⟨f - 1, by have h1 := encodeValue_length_pos (OVal.ostr bs); omega⟩
      by_cases hA : bs.length ≤ 0x20
      · have henc : encodeValue (OVal.ostr bs) = (0x40 + bs.length) :: bs := by
          show encodeString bs = (0x40 + bs.length) :: bs
          simp only [encodeString]
          rw [if_pos hA]
        rw [henc,
          show ((0x40 + bs.length) :: bs) ++ rest = (0x40 + bs.length) :: (bs ++ rest) from rfl,
          decodeValueF_strInline g (0x40 + bs.length) (by omega) (by omega) (bs ++ rest),
          show 0x40 + bs.length - 0x40 = bs.length from by omega,
          List.take_left, List.drop_left]
      · by_cases hB : bs.length ≤ 0xff
        · have henc : encodeValue (OVal.ostr bs) = 0x61 :: bs.length :: bs := by
            show encodeString bs = 0x61 :: bs.length :: bs
            simp only [encodeString]
            rw [if_neg hA, if_pos hB]
          rw [henc,
            show (0x61 :: bs.length :: bs) ++ rest = 0x61 :: (bs.length :: (bs ++ rest)) from rfl,
            decodeValueF_tag61]
          show some (OVal.ostr ((bs ++ rest).take bs.length), (bs ++ rest).drop bs.length) =
            some (OVal.ostr bs, rest)
          rw [List.take_left, List.drop_left]
        · by_cases hC : bs.length ≤ 0xffff
          · have henc : encodeValue (OVal.ostr bs) = 0x62 :: (leBytes 2 bs.length ++ bs) := by
              show encodeString bs = 0x62 :: (leBytes 2 bs.length ++ bs)
              simp only [encodeString]
              rw [if_neg hA, if_neg hB, if_pos hC]
            have hlt : bs.length < 2 ^ (8 * 2) := by
              have he : (2 : Nat) ^ (8 * 2) = 65536 := by norm_num
              omega
            rw [henc,
              show (0x62 :: (leBytes 2 bs.length ++ bs)) ++ rest =
                0x62 :: ((leBytes 2 bs.length ++ bs) ++ rest) from rfl,
              List.append_assoc, decodeValueF_tag62, readLE_leBytes 2 bs.length hlt (bs ++ rest)]
            show some (OVal.ostr ((bs ++ rest).take bs.length), (bs ++ rest).drop bs.length) =
              some (OVal.ostr bs, rest)
            rw [List.take_left, List.drop_left]
          · by_cases hD : bs.length ≤ 0xffffff
            · have henc : encodeValue (OVal.ostr bs) = 0x63 :: (leBytes 3 bs.length ++ bs) := by
                show encodeString bs = 0x63 :: (leBytes 3 bs.length ++ bs)
                simp only [encodeString]
                rw [if_neg hA, if_neg hB, if_neg hC, if_pos hD]
              have hlt : bs.length < 2 ^ (8 * 3) := by
                have he : (2 : Nat) ^ (8 * 3) = 16777216 := by norm_num
                omega
              rw [henc,
                show (0x63 :: (leBytes 3 bs.length ++ bs)) ++ rest =
                  0x63 :: ((leBytes 3 bs.length ++ bs) ++ rest) from rfl,
                List.append_assoc, decodeValueF_tag63,
                readLE_leBytes 3 bs.length hlt (bs ++ rest)]
              show some (OVal.ostr ((bs ++ rest).take bs.length), (bs ++ rest).drop bs.length) =
                some (OVal.ostr bs, rest)
              rw [List.take_left, List.drop_left]
            · have henc : encodeValue (OVal.ostr bs) = 0x64 :: (leBytes 4 bs.length ++ bs) := by
                show encodeString bs = 0x64 :: (leBytes 4 bs.length ++ bs)
                simp only [encodeString]
                rw [if_neg hA, if_neg hB, if_neg hC, if_neg hD]
              have hlt : bs.length < 2 ^ (8 * 4) := by
                have he : (2 : Nat) ^ (8 * 4) = 4294967296 := by norm_num
                have h32 : (2 : Nat) ^ 32 = 4294967296 := by norm_num
                omega
              rw [henc,
                show (0x64 :: (leBytes 4 bs.length ++ bs)) ++ rest =
                  0x64 :: ((leBytes 4 bs.length ++ bs) ++ rest) from rfl,
                List.append_assoc, decodeValueF_tag64,
                readLE_leBytes 4 bs.length hlt (bs ++ rest)]
              show some (OVal.ostr ((bs ++ rest).take bs.length), (bs ++ rest).drop bs.length) =
                some (OVal.ostr bs, rest)
              rw [List.take_left, List.drop_left]
    | odata bs =>
      have hlen : bs.length < 2 ^ 32 := by
        have h := hok
        simp only [rtOk, Bool.and_eq_true, decide_eq_true_eq] at h
        exact h.1
      intro f rest hf
      obtain ⟨g, rfl⟩ : ∃ g, f = g + 1 :=
        ⟨f - 1, by have h1 := encodeValue_length_pos (OVal.odata bs); omega⟩
      by_cases hA : bs.length ≤ 0x20
      · have henc : encodeValue (OVal.odata bs) = (0x70 + bs.length) :: bs := by
          show encodeData bs = (0x70 + bs.length) :: bs
          simp only [encodeData]
          rw [if_pos hA]
        rw [henc,
          show ((0x70 + bs.length) :: bs) ++ rest = (0x70 + bs.length) :: (bs ++ rest) from rfl,
          decodeValueF_dataInline g (0x70 + bs.length) (by omega) (by omega) (bs ++ rest),
          show 0x70 + bs.length - 0x70 = bs.length from by omega,
          List.take_left, List.drop_left]
      · by_cases hB : bs.length ≤ 0xff
        · have henc : encodeValue (OVal.odata bs) = 0x91 :: bs.length :: bs := by
            show encodeData bs = 0x91 :: bs.length :: bs
            simp only [encodeData]
            rw [if_neg hA, if_pos hB]
          rw [henc,
            show (0x91 :: bs.length :: bs) ++ rest = 0x91 :: (bs.length :: (bs ++ rest)) from rfl,
            decodeValueF_tag91]
          show some (OVal.odata ((bs ++ rest).take bs.length), (bs ++ rest).drop bs.length) =
            some (OVal.odata bs, rest)
          rw [List.take_left, List.drop_left]
        · by_cases hC : bs.length ≤ 0xffff
          · have henc : encodeValue (OVal.odata bs) = 0x92 :: (leBytes 2 bs.length ++ bs) := by
              show encodeData bs = 0x92 :: (leBytes 2 bs.length ++ bs)
              simp only [encodeData]
              rw [if_neg hA, if_neg hB, if_pos hC]
            have hlt : bs.length < 2 ^ (8 * 2) := by
              have he : (2 : Nat) ^ (8 * 2) = 65536 := by norm_num
              omega
            rw [henc,
              show (0x92 :: (leBytes 2 bs.length ++ bs)) ++ rest =
                0x92 :: ((leBytes 2 bs.length ++ bs) ++ rest) from rfl,
              List.append_assoc, decodeValueF_tag92, readLE_leBytes 2 bs.length hlt (bs ++ rest)]
            show some (OVal.odata ((bs ++ rest).take bs.length), (bs ++ rest).drop bs.length) =
              some (OVal.odata bs, rest)
            rw [List.take_left, List.drop_left]
          · have henc : encodeValue (OVal.odata bs) = 0x93 :: (leBytes 4 bs.length ++ bs) := by
              show encodeData bs = 0x93 :: (leBytes 4 bs.length ++ bs)
              simp only [encodeData]
              rw [if_neg hA, if_neg hB, if_neg hC]
            have hlt : bs.length < 2 ^ (8 * 4) := by
              have he : (2 : Nat) ^ (8 * 4) = 4294967296 := by norm_num
              have h32 : (2 : Nat) ^ 32 = 4294967296 := by norm_num
              omega
            rw [henc,
              show (0x93 :: (leBytes 4 bs.length ++ bs)) ++ rest =
                0x93 :: ((leBytes 4 bs.length ++ bs) ++ rest) from rfl,
              List.append_assoc, decodeValueF_tag93, readLE_leBytes 4 bs.length hlt (bs ++ rest)]
            show some (OVal.odata ((bs ++ rest).take bs.length), (bs ++ rest).drop bs.length) =
              some (OVal.odata bs, rest)
            rw [List.take_left, List.drop_left]
    | oarr xs =>
      have hl : rtOkList xs = true := by
        have h := hok
        simp only [rtOk] at h
        exact h
      have hRT : ∀ x ∈ xs, RTp x := by
        intro x hx
        have hsx : sizeOf x < sizeOf xs := List.sizeOf_lt_of_mem hx
        have harr : sizeOf (OVal.oarr xs) = 1 + sizeOf xs := by simp
        exact IHN (sizeOf x) (by omega) x le_rfl (rtOkList_mem xs hl x hx)
      intro f rest hf
      obtain ⟨g, rfl⟩ : ∃ g, f = g + 1 :=
        ⟨f - 1, by have h1 := encodeValue_length_pos (OVal.oarr xs); omega⟩
      by_cases hlt : xs.length < 0x0f
      · have hmin : min xs.length 0x0f = xs.length := by omega
        have hterm : (if 0x0f ≤ xs.length then [0x03] else ([] : List Nat)) = [] :=
          if_neg (by omega)
        have henc : encodeValue (OVal.oarr xs) = (0xd0 + xs.length) :: encodeList xs := by
          show (0xd0 + min xs.length 0x0f) ::
              (encodeList xs ++ if 0x0f ≤ xs.length then [0x03] else []) =
            (0xd0 + xs.length) :: encodeList xs
          rw [hmin, hterm, List.append_nil]
        rw [henc] at hf
        simp only [List.length_cons] at hf
        rw [henc,
          show ((0xd0 + xs.length) :: encodeList xs) ++ rest =
            (0xd0 + xs.length) :: (encodeList xs ++ rest) from rfl,
          decodeValueF_arrN g (0xd0 + xs.length) (by omega) (by omega) (encodeList xs ++ rest),
          show 0xd0 + xs.length - 0xd0 = xs.length from by omega,
          rt_listN xs hRT g rest (by omega)]
      · have hge : 0x0f ≤ xs.length := by omega
        have hmin : min xs.length 0x0f = 0x0f := by omega
        have hterm : (if 0x0f ≤ xs.length then [0x03] else ([] : List Nat)) = [0x03] :=
          if_pos hge
        have henc : encodeValue (OVal.oarr xs) = 0xdf :: (encodeList xs ++ [0x03]) := by
          show (0xd0 + min xs.length 0x0f) ::
              (encodeList xs ++ if 0x0f ≤ xs.length then [0x03] else []) =
            0xdf :: (encodeList xs ++ [0x03])
          rw [hmin, hterm]
        rw [henc] at hf
        simp only [List.length_cons, List.length_append, List.length_singleton] at hf
        rw [henc,
          show (0xdf :: (encodeList xs ++ [0x03])) ++ rest =
            0xdf :: ((encodeList xs ++ [0x03]) ++ rest) from rfl,
          List.append_assoc, List.singleton_append, decodeValueF_tagdf,
          rt_listTerm xs hRT g rest (by omega)]
    | odict ps =>
      have hl : rtOkPairs ps = true := by
        have h := hok
        simp only [rtOk, Bool.and_eq_true] at h
        exact h.2
      have hRT : ∀ p ∈ ps, RTp p.1 ∧ RTp p.2 := by
        intro p hp
        have hsp : sizeOf p < sizeOf ps := List.sizeOf_lt_of_mem hp
        have hdict : sizeOf (OVal.odict ps) = 1 + sizeOf ps := by simp
        have hmem := rtOkPairs_mem ps hl p hp
        obtain ⟨k, w⟩ := p
        have hkw : sizeOf ((k, w) : OVal × OVal) = 1 + sizeOf k + sizeOf w := rfl
        exact ⟨IHN (sizeOf k) (by omega) k le_rfl hmem.1,
          IHN (sizeOf w) (by omega) w le_rfl hmem.2⟩
      intro f rest hf
      obtain ⟨g, rfl⟩ : ∃ g, f = g + 1 :=
        ⟨f - 1, by have h1 := encodeValue_length_pos (OVal.odict ps); omega⟩
      by_cases hlt : ps.length < 0x0f
      · have hmin : min ps.length 0x0f = ps.length := by omega
        have hterm : (if 0x0f ≤ ps.length then [0x03] else ([] : List Nat)) = [] :=
          if_neg (by omega)
        have henc : encodeValue (OVal.odict ps) = (0xe0 + ps.length) :: encodePairs ps := by
          show (0xe0 + min ps.length 0x0f) ::
              (encodePairs ps ++ if 0x0f ≤ ps.length then [0x03] else []) =
            (0xe0 + ps.length) :: encodePairs ps
          rw [hmin, hterm, List.append_nil]
        rw [henc] at hf
        simp only [List.length_cons] at hf
        rw [henc,
          show ((0xe0 + ps.length) :: encodePairs ps) ++ rest =
            (0xe0 + ps.length) :: (encodePairs ps ++ rest) from rfl,
          decodeValueF_dictN g (0xe0 + ps.length) (by omega) (by omega) (encodePairs ps ++ rest),
          show 0xe0 + ps.length - 0xe0 = ps.length from by omega,
          rt_pairsN ps hRT g rest (by omega)]
      · have hge : 0x0f ≤ ps.length := by omega
        have hmin : min ps.length 0x0f = 0x0f := by omega
        have hterm : (if 0x0f ≤ ps.length then [0x03] else ([] : List Nat)) = [0x03] :=
          if_pos hge
        have henc : encodeValue (OVal.odict ps) = 0xef :: (encodePairs ps ++ [0x03]) := by
          show (0xe0 + min ps.length 0x0f) ::
              (encodePairs ps ++ if 0x0f ≤ ps.length then [0x03] else []) =
            0xef :: (encodePairs ps ++ [0x03])
          rw [hmin, hterm]
        rw [henc] at hf
        simp only [List.length_cons, List.length_append, List.length_singleton] at hf
        rw [henc,
          show (0xef :: (encodePairs ps ++ [0x03])) ++ rest =
            0xef :: ((encodePairs ps ++ [0x03]) ++ rest) from rfl,
          List.append_assoc, List.singleton_append, decodeValueF_tagef,
          rt_pairsTerm ps hRT g rest (by omega)]

/-- Any value in the roundtrip domain satisfies the roundtrip property. -/
theorem rt_value (v : OVal) (h : rtOk v = true) : RTp v :=
  rt_value_aux (sizeOf v) v le_rfl h


/-- For every non-dictionary value the encoder's leading tag byte is exactly
the tag the spec's section 4.2 size thresholds dictate. -/
theorem encodeValue_headByte (v : OVal) (h : isDict v = false) :
    (encodeValue v).head? = some (specTag v) := by
  cases v with
  | onull => rfl
  | obool b => cases b <;> rfl
  | oint n =>
    show (encodeInteger n).head? = some (specTag (OVal.oint n))
    simp only [encodeInteger, specTag]
    split_ifs <;> rfl
  | obig n => rfl
  | ofloat bs => rfl
  | ostr bs =>
    show (encodeString bs).head? = some (specTag (OVal.ostr bs))
    simp only [encodeString, specTag]
    split_ifs <;> rfl
  | odata bs =>
    show (encodeData bs).head? = some (specTag (OVal.odata bs))
    simp only [encodeData, specTag]
    split_ifs <;> rfl
  | oarr xs =>
    simp only [specTag]
    by_cases hlt : xs.length < 15
    · have hmin : min xs.length 0x0f = xs.length := by omega
      show some (0xd0 + min xs.length 0x0f) = some (if xs.length < 15 then 0xd0 + xs.length else 0xdf)
      rw [hmin, if_pos hlt]
    · have hmin : min xs.length 0x0f = 0x0f := by omega
      show some (0xd0 + min xs.length 0x0f) = some (if xs.length < 15 then 0xd0 + xs.length else 0xdf)
      rw [hmin, if_neg hlt]
  | odict ps =>
    simp only [isDict] at h
    exact Bool.noConfusion h

/-- The encoder's dictionary tag byte is `0xE0 + min(count, 15)`. -/
theorem encodeValue_dict_head (ps : List (OVal × OVal)) :
    (encodeValue (OVal.odict ps)).head? = some (0xe0 + min ps.length 0x0f) := rfl

/-- C2 (amended): the concrete tag-byte examples as the code actually
produces them.  `encode(0) = 0x08`, `encode(20) = 0x1C`,
`encode(256) = 0x31 0x00 0x01` and `encode("hi") = 0x42 0x68 0x69` hold as
the spec states; `encode(-1)`, however, is NOT `0x30 0xFF`: `encodeInteger`
only selects the uint8/16/32 forms for non-negative inputs, so any negative
integer falls through to the int64 branch and is written as eight
two's-complement little-endian bytes with tag 0x33. -/
theorem opack_tag_examples :
    opackEncode (OVal.oint 0) = [0x08] ∧
    opackEncode (OVal.oint 20) = [0x1C] ∧
    opackEncode (OVal.oint 256) = [0x31, 0x00, 0x01] ∧
    opackEncode (OVal.ostr [0x68, 0x69]) = [0x42, 0x68, 0x69] ∧
    opackEncode (OVal.oint (-1)) = 0x33 :: List.replicate 8 0xFF := by
  refine ⟨rfl, rfl, rfl, rfl, ?_⟩
  show encodeInteger (-1) = 0x33 :: List.replicate 8 0xFF
  decide

/-- C2 counterexample: the spec's `encode(-1) = 0x30 0xFF` is wrong for the
code: the encoder emits the 9-byte int64 form for `-1`. -/
theorem opack_tag_examples_counterexample :
    opackEncode (OVal.oint (-1)) ≠ [0x30, 0xFF] ∧
    opackEncode (OVal.oint (-1)) = 0x33 :: List.replicate 8 0xFF := by
  constructor
  · show encodeInteger (-1) ≠ [0x30, 0xFF]
    decide
  · show encodeInteger (-1) = 0x33 :: List.replicate 8 0xFF
    decide

/-- C3 (amended): (1) over the domain `rtOk` — integer-valued numbers in
`[0, 2^53 − 1]`, bigints in `[2^53, 2^63 − 1]`, 8-byte floats, strings and
byte sequences of fewer than 2^32 genuine bytes, arrays and maps of such
values with structurally distinct map keys — decoding an encoding returns
exactly the original value (for any count, including the ≥ 15 terminated
forms); (2) for every non-dictionary value the encoder picks exactly the
tag byte of the spec's section 4.2 size thresholds; (3) for dictionaries
the code's tag byte is `0xE0 + min(count, 15)`, not the spec's
`0xE0 + 2·count`. -/
theorem opack_roundtrip_amended :
    (∀ v : OVal, rtOk v = true → opackDecode (opackEncode v) = some v) ∧
    (∀ v : OVal, isDict v = false → (opackEncode v).head? = some (specTag v)) ∧
    (∀ ps : List (OVal × OVal),
      (opackEncode (OVal.odict ps)).head? = some (0xe0 + min ps.length 0x0f)) := by
  refine ⟨?_, ?_, ?_⟩
  · intro v hv
    have h := rt_value v hv (2 * (encodeValue v).length + 2) [] (by omega)
    rw [List.append_nil] at h
    show (decodeValueF (2 * (encodeValue v).length + 2) (encodeValue v)).map
      (fun r => r.1) = some v
    rw [h]
    rfl
  · exact fun v h => encodeValue_headByte v h
  · exact fun ps => encodeValue_dict_head ps

/-- C3 witness: a concrete nested value (map with a string key, an array
value holding an int16-range number, a bool, and a 33-byte string forcing
the u8-length form) roundtrips; the tag byte of a non-dictionary and of a
dictionary evaluated concretely. -/
theorem opack_roundtrip_amended_witness :
    rtOk (OVal.odict [(OVal.ostr [104, 105],
      OVal.oarr [OVal.oint 300, OVal.obool true, OVal.onull])]) = true ∧
    opackDecode (opackEncode (OVal.odict [(OVal.ostr [104, 105],
      OVal.oarr [OVal.oint 300, OVal.obool true, OVal.onull])])) =
      some (OVal.odict [(OVal.ostr [104, 105],
        OVal.oarr [OVal.oint 300, OVal.obool true, OVal.onull])]) ∧
    isDict (OVal.oint 300) = false ∧
    (opackEncode (OVal.oint 300)).head? = some (specTag (OVal.oint 300)) ∧
    (opackEncode (OVal.odict [(OVal.onull, OVal.onull)])).head? =
      some (0xe0 + min (List.length [(OVal.onull, OVal.onull)]) 0x0f) :=
  ⟨by decide,
   opack_roundtrip_amended.1 _ (by decide),
   rfl,
   opack_roundtrip_amended.2.1 _ rfl,
   opack_roundtrip_amended.2.2 [(OVal.onull, OVal.onull)]⟩

/-- C3 counterexample: `decode(encode(-1))` is `2^64 − 1` as a bigint, not
`-1` (the int64 bytes are reread as unsigned), refuting the roundtrip over
the full value space; and a 1-entry dictionary is tagged 0xE1
(`0xE0 + count`), not the spec's 0xE2 (`0xE0 + 2·count`). -/
theorem opack_roundtrip_counterexample :
    opackDecode (opackEncode (OVal.oint (-1))) =
      some (OVal.obig ((18446744073709551615 : Nat) : Int)) ∧
    opackDecode (opackEncode (OVal.oint (-1))) ≠ some (OVal.oint (-1)) ∧
    (opackEncode (OVal.odict [(OVal.oint 1, OVal.oint 2)])).head? = some 0xe1 ∧
    specTag (OVal.odict [(OVal.oint 1, OVal.oint 2)]) = 0xe2 := by
  have h1 : opackDecode (opackEncode (OVal.oint (-1))) =
      some (OVal.obig ((18446744073709551615 : Nat) : Int)) := rfl
  refine ⟨h1, ?_, rfl, rfl⟩
  intro hcon
  rw [h1] at hcon
  have h2 := Option.some.inj hcon
  exact OVal.noConfusion h2


/-! ## Companion transfer registry lemmas -/

theorem mapGet_mapSet (k v : OVal) (hk : obeq k k = true) :
    ∀ m : List (OVal × OVal), mapGet k (mapSet k v m) = some v := by
  intro m
  induction m with
  | nil => simp [mapGet, mapSet, hk]
  | cons p rest ih =>
    obtain ⟨k2, v2⟩ := p
    by_cases h : obeq k k2 = true
    · simp [mapGet, mapSet, h]
    · simp [mapGet, mapSet, h, ih]

/-- C8: the transfer registry. (1) `sendRequest` increments the transfer
counter, allocates the old counter value as the request's id, appends it to
the pending registry, and stamps the outgoing map's `_x` with it; (2) an
inbound map whose `_x` is a number equal to a pending id removes exactly
that entry and fulfils its caller with the map; (3) an inbound map whose
`_x` matches no pending entry leaves the registry unchanged and is
delivered as an event; (4) a timeout removes its own entry, fails only its
own caller, and every other pending id stays registered; (5) `close` fails
every remaining entry with the closed-connection error and empties the
registry. -/
theorem companion_transfer_registry :
    (∀ (s : CompState) (idf : List Nat) (c : List (OVal × OVal)),
      (sendRequest s idf c).1.transferId = s.transferId + 1 ∧
      (sendRequest s idf c).2.1 = s.transferId ∧
      (sendRequest s idf c).1.pending = s.pending ++ [s.transferId] ∧
      mapGet (OVal.ostr [0x5f, 0x78]) (sendRequest s idf c).2.2 =
        some (OVal.oint (s.transferId : Int))) ∧
    (∀ (s : CompState) (ps : List (OVal × OVal)) (n : Int),
      mapGet (OVal.ostr [0x5f, 0x78]) ps = some (OVal.oint n) →
      0 ≤ n → n.toNat ∈ s.pending →
      handleMessage s (OVal.odict ps) =
        (⟨s.transferId, s.pending.erase n.toNat⟩, CompOutcome.fulfilled n.toNat ps)) ∧
    (∀ (s : CompState) (ps : List (OVal × OVal)),
      (∀ n : Int, mapGet (OVal.ostr [0x5f, 0x78]) ps = some (OVal.oint n) →
        ¬(0 ≤ n ∧ n.toNat ∈ s.pending)) →
      handleMessage s (OVal.odict ps) = (s, CompOutcome.event ps)) ∧
    (∀ (s : CompState) (tid t : Nat),
      (timeoutFire s tid).1.pending = s.pending.erase tid ∧
      (timeoutFire s tid).2 = CompOutcome.timedOut tid ∧
      (t ≠ tid → t ∈ s.pending → t ∈ (timeoutFire s tid).1.pending)) ∧
    (∀ s : CompState,
      (closeConn s).1.pending = [] ∧
      (closeConn s).2 = s.pending.map CompOutcome.closedErr) := by
  refine ⟨?_, ?_, ?_, ?_, ?_⟩
  · intro s idf c
    refine ⟨rfl, rfl, rfl, ?_⟩
    show mapGet (OVal.ostr [0x5f, 0x78])
        (mapSet (OVal.ostr [0x5f, 0x78]) (OVal.oint (s.transferId : Int))
          (mapSet (OVal.ostr [0x5f, 0x69]) (OVal.ostr idf) c)) =
      some (OVal.oint (s.transferId : Int))
    exact mapGet_mapSet _ _ (by decide) _
  · intro s ps n hget hn hmem
    show handleDict s ps = _
    simp only [handleDict, hget]
    rw [if_pos (⟨hn, hmem⟩ : 0 ≤ n ∧ n.toNat ∈ s.pending)]
  · intro s ps hno
    show handleDict s ps = (s, CompOutcome.event ps)
    cases hg : mapGet (OVal.ostr [0x5f, 0x78]) ps with
    | none => simp only [handleDict, hg]
    | some val =>
      cases val with
      | oint n =>
        simp only [handleDict, hg]
        rw [if_neg (hno n hg)]
      | onull => simp only [handleDict, hg]
      | obool b => simp only [handleDict, hg]
      | obig m => simp only [handleDict, hg]
      | ofloat bs => simp only [handleDict, hg]
      | ostr bs => simp only [handleDict, hg]
      | odata bs => simp only [handleDict, hg]
      | oarr xs => simp only [handleDict, hg]
      | odict qs => simp only [handleDict, hg]
  · intro s tid t
    exact ⟨rfl, rfl, fun hne hmem => (List.mem_erase_of_ne hne).mpr hmem⟩
  · intro s
    exact ⟨rfl, rfl⟩

/-- C8 witness: a concrete registry run — allocation appends the id,
a matching `_x = 2` fulfils and removes entry 2, a non-matching `_x` on a
registry holding only 5 is an event, a timeout for id 0 leaves id 2, and
close rejects both remaining entries. -/
theorem companion_transfer_registry_witness :
    (sendRequest ⟨5, [3, 4]⟩ [97] []).1.pending = [3, 4, 5] ∧
    handleMessage ⟨3, [0, 2]⟩ (OVal.odict [(OVal.ostr [0x5f, 0x78], OVal.oint 2)]) =
      (⟨3, [0]⟩, CompOutcome.fulfilled 2 [(OVal.ostr [0x5f, 0x78], OVal.oint 2)]) ∧
    handleMessage ⟨3, [5]⟩ (OVal.odict [(OVal.ostr [0x5f, 0x78], OVal.oint 2)]) =
      (⟨3, [5]⟩, CompOutcome.event [(OVal.ostr [0x5f, 0x78], OVal.oint 2)]) ∧
    (timeoutFire ⟨3, [0, 2]⟩ 0).1.pending = [2] ∧
    (closeConn ⟨3, [0, 2]⟩).2 = [CompOutcome.closedErr 0, CompOutcome.closedErr 2] := by
  refine ⟨?_, ?_, ?_, ?_, ?_⟩
  · exact (companion_transfer_registry.1 ⟨5, [3, 4]⟩ [97] []).2.2.1
  · exact companion_transfer_registry.2.1 ⟨3, [0, 2]⟩
      [(OVal.ostr [0x5f, 0x78], OVal.oint 2)] 2 rfl (by decide) (by decide)
  · have hno : ∀ n : Int, mapGet (OVal.ostr [0x5f, 0x78])
        [(OVal.ostr [0x5f, 0x78], OVal.oint 2)] = some (OVal.oint n) →
        ¬(0 ≤ n ∧ n.toNat ∈ [5]) := by
      intro n hn
      have hn2 : some (OVal.oint 2) = some (OVal.oint n) := hn
      have h2 := Option.some.inj hn2
      have h3 : (2 : Int) = n := by injection h2
      rw [← h3]
      decide
    exact companion_transfer_registry.2.2.1 ⟨3, [5]⟩ _ hno
  · exact (companion_transfer_registry.2.2.2.1 ⟨3, [0, 2]⟩ 0 1).1
  · exact (companion_transfer_registry.2.2.2.2 ⟨3, [0, 2]⟩).2

end ATV
